import Mathlib

/-!
# challenge_24: the expression tree and the combinatorial search

A shallow embedding of `challenge.cpp`, in two readings of the C++ `int`.

* `challenge`, `find_binary_operation`, `Expression.evaluate`: `int` is an
  exact, unbounded integer (`Int`), the reading of the specification ("all
  arithmetic is exact integer arithmetic").  `/` and `%` are the truncating
  C++ operators (`Int.tdiv`, `Int.tmod`) and are checked: a zero divisor is a
  fault.
* `challenge32`, `find_binary_operation32`, `Expression.evaluate32`: `int` is
  the 32-bit two's complement integer of the compiled program.  `+`, `-` and
  `*` wrap around (`wrap`), and `/` and `%` fault for a zero divisor and for
  `INT_MIN` by `-1`.

The two readings have the same control flow and differ only in the
arithmetic.  The mutual recursion between `challenge` and
`find_binary_operation` is tied through a fuel counter; `challenge` supplies
one unit of fuel more than the list has elements, which is shown to be
enough in both readings.
-/

namespace Challenge24

/-- What can go wrong while running the program: a `/` or `%` with a zero
divisor, a `/` or `%` of `INT_MIN` by `-1` (its quotient is not an `int`; the
machine instruction traps), a failed `assert`, a vector read outside its
range, or the model running out of fuel. -/
inductive Fault where
  | divByZero
  | divOverflow
  | assertFail
  | outOfRange
  | outOfFuel
  deriving DecidableEq, Repr

/-- The `Expression` of the source: `std::variant<Nothing, int,
std::unique_ptr<BinaryOperation>>`.  The third alternative carries the three
fields `left`, `operation`, `right` of `BinaryOperation`. -/
inductive Expression where
  | nothing : Expression
  | int (x : Int) : Expression
  | binop (left : Expression) (operation : Char) (right : Expression) : Expression
  deriving DecidableEq, Repr

deriving instance DecidableEq for Except

/-- Outcome of a search call: a fault, or the `std::optional<Expression>`. -/
abbrev Result := Except Fault (Option Expression)

/-- C++ `a / b` on exact integers: truncating, undefined for `b == 0`.  The
32-bit reading is `cdiv32`. -/
def cdiv (a b : Int) : Except Fault Int :=
  if b = 0 then .error .divByZero else .ok (a.tdiv b)

/-- C++ `a % b` on exact integers: truncating, undefined for `b == 0`.  The
32-bit reading is `cmod32`. -/
def cmod (a b : Int) : Except Fault Int :=
  if b = 0 then .error .divByZero else .ok (a.tmod b)

/-- The `switch(operation)` of `BinaryOperation::evaluate`, on exact integers.
The 32-bit reading is `applyOperation32`. -/
def applyOperation (operation : Char) (left_ right_ : Int) : Except Fault Int :=
  if operation = '+' then .ok (left_ + right_)
  else if operation = '-' then .ok (left_ - right_)
  else if operation = '*' then .ok (left_ * right_)
  else if operation = '/' then cdiv left_ right_
  else .error .assertFail

/-- `Expression::evaluate` together with `BinaryOperation::evaluate`, on exact
integers.  The 32-bit reading is `Expression.evaluate32`. -/
def Expression.evaluate : Expression → Except Fault Int
  | .nothing => .ok 0
  | .int x => .ok x
  | .binop left operation right =>
    match left.evaluate with
    | .error f => .error f
    | .ok left_ =>
      match right.evaluate with
      | .error f => .error f
      | .ok right_ => applyOperation operation left_ right_

/-- `Expression::print` together with `BinaryOperation::print`; the stream is
the returned string. -/
def Expression.print : Expression → String
  | .nothing => "[Anything]"
  | .int x => toString x
  | .binop left operation right =>
    "( " ++ left.print ++ " " ++ String.singleton operation ++ " " ++ right.print ++ " )"

/-- The Literal values at the leaves of a tree, left to right. -/
def Expression.literals : Expression → List Int
  | .nothing => []
  | .int x => [x]
  | .binop left _ right => left.literals ++ right.literals

/-- Whether a tree contains an Empty node (variant alternative 0). -/
def Expression.hasNothing : Expression → Bool
  | .nothing => true
  | .int _ => false
  | .binop left _ right => left.hasNothing || right.hasNothing

/-- Every `'/'` node of the tree has operands that evaluate, the right one
to a non-zero integer that divides the left one with remainder 0. -/
def Expression.DivisionsExact : Expression → Prop
  | .nothing => True
  | .int _ => True
  | .binop left operation right =>
    left.DivisionsExact ∧ right.DivisionsExact ∧
      (operation = '/' → ∃ a b, left.evaluate = .ok a ∧ right.evaluate = .ok b ∧
        b ≠ 0 ∧ a.tmod b = 0)

/-- The statement `if (auto expr = r; expr) return wrap(*expr);` followed by
the rest of the function body. -/
def attempt (r : Result) (wrap : Expression → Expression) (rest : Result) : Result :=
  match r with
  | .error f => .error f
  | .ok (some expr) => .ok (some (wrap expr))
  | .ok none => rest

/-- The body of `find_binary_operation` on exact integers, with the recursive
call to `challenge` passed in as `rec`.  The 32-bit reading, in which the
subtargets wrap around, is `find_binary_operation_with32`. -/
def find_binary_operation_with (rec : List Int → Int → Result)
    (candidate : Expression) (others : List Int) (target : Int) : Result :=
  match candidate.evaluate with
  | .error f => .error f
  | .ok candidate_value =>
    attempt (rec others (target - candidate_value)) (fun expr => .binop candidate '+' expr) <|
    attempt (rec others (candidate_value - target)) (fun expr => .binop candidate '-' expr) <|
    attempt (rec others (candidate_value + target)) (fun expr => .binop expr '-' candidate) <|
    if target = 0 then
      if candidate_value = 0 then
        .ok (some (.binop candidate '*' .nothing))
      else
        attempt (rec others 0) (fun expr => .binop candidate '*' expr) (.ok none)
    else
      if candidate_value ≠ 0 then
        let divisor_case : Result :=
          attempt (rec others (candidate_value * target))
            (fun expr => .binop expr '/' candidate) (.ok none)
        let dividend_case : Result :=
          match cmod candidate_value target with
          | .error f => .error f
          | .ok m =>
            if m = 0 then
              match cdiv candidate_value target with
              | .error f => .error f
              | .ok q =>
                attempt (rec others q) (fun expr => .binop candidate '/' expr) divisor_case
            else divisor_case
        match cmod target candidate_value with
        | .error f => .error f
        | .ok m =>
          if m = 0 then
            match cdiv target candidate_value with
            | .error f => .error f
            | .ok q =>
              attempt (rec others q) (fun expr => .binop candidate '*' expr) dividend_case
          else dividend_case
      else .ok none

/-- A loop whose body is `if (auto expr = body(x); expr) return expr;`, run
over `xs` in order, followed by the rest of the function body. -/
def firstSuccess {α : Type} (body : α → Result) : List α → Result → Result
  | [], rest => rest
  | x :: xs, rest => attempt (body x) id (firstSuccess body xs rest)

/-- The read `numbers[i]` of a `std::vector<int>`; outside the range it is a
fault. -/
def index (numbers : List Int) (i : Nat) : Except Fault Int :=
  match numbers[i]? with
  | some x => .ok x
  | none => .error .outOfRange

/-- The body of the single-operand loop of `challenge` at index `i`. -/
def singleBody (rec : List Int → Int → Result) (numbers : List Int) (target : Int)
    (i : Nat) : Result :=
  match index numbers i with
  | .error f => .error f
  | .ok operand =>
    let others := numbers.eraseIdx i
    find_binary_operation_with rec (.int operand) others target

/-- The body of the inner pairwise loop of `challenge` at indices `i`, `j`.
`BinaryOperation{left, op, right}` is built from two literals. -/
def pairBody (rec : List Int → Int → Result) (numbers : List Int) (target : Int)
    (i j : Nat) : Result :=
  match index numbers i with
  | .error f => .error f
  | .ok left =>
    match index numbers j with
    | .error f => .error f
    | .ok right =>
      let others := (numbers.eraseIdx j).eraseIdx i
      let second_division : Result :=
        if left ≠ 0 then
          match cmod right left with
          | .error f => .error f
          | .ok m =>
            if m = 0 then
              attempt (find_binary_operation_with rec (.binop (.int right) '/' (.int left))
                others target) id (.ok none)
            else .ok none
        else .ok none
      attempt (find_binary_operation_with rec (.binop (.int left) '+' (.int right))
        others target) id <|
      attempt (find_binary_operation_with rec (.binop (.int left) '-' (.int right))
        others target) id <|
      attempt (find_binary_operation_with rec (.binop (.int right) '-' (.int left))
        others target) id <|
      attempt (find_binary_operation_with rec (.binop (.int left) '*' (.int right))
        others target) id <|
      if right ≠ 0 then
        match cmod left right with
        | .error f => .error f
        | .ok m =>
          if m = 0 then
            attempt (find_binary_operation_with rec (.binop (.int left) '/' (.int right))
              others target) id second_division
          else second_division
      else second_division

/-- The body of `challenge`, with the recursive call passed in as `rec`. -/
def challenge_with (rec : List Int → Int → Result) (numbers : List Int) (target : Int) :
    Result :=
  match numbers with
  | [x] => if target = x then .ok (some (.int x)) else .ok none
  | _ =>
    firstSuccess (singleBody rec numbers target) (List.range numbers.length) <|
    if numbers.length ≥ 4 then
      firstSuccess
        (fun i => firstSuccess (pairBody rec numbers target i)
          (List.range' (i + 1) (numbers.length - (i + 1))) (.ok none))
        (List.range (numbers.length - 1)) (.ok none)
    else .ok none

/-- The search with a bound `fuel` on the depth of the recursion. -/
def challengeFuel : Nat → List Int → Int → Result
  | 0, _, _ => .error .outOfFuel
  | fuel + 1, numbers, target => challenge_with (challengeFuel fuel) numbers target

/-- The function `challenge` of the source. -/
def challenge (numbers : List Int) (target : Int) : Result :=
  challengeFuel (numbers.length + 1) numbers target

/-- The function `find_binary_operation` of the source. -/
def find_binary_operation (candidate : Expression) (others : List Int) (target : Int) :
    Result :=
  find_binary_operation_with challenge candidate others target

/-! ## The same program on 32-bit `int`

The definitions above read `int` as an exact integer.  The ones below read
it as the 32-bit two's complement `int` of the compiled program: `+`, `-`
and `*` wrap around, and `/` and `%` fault for a zero divisor and for
`INT_MIN` by `-1`.  The control flow is the same, line by line. -/

/-- The least `int`. -/
def INT_MIN : Int := -2147483648

/-- The 32-bit `int` that an exact result wraps around to. -/
def wrap (x : Int) : Int := (x + 2147483648) % 4294967296 - 2147483648

/-- C++ `a / b` on 32-bit `int`: truncating; a zero divisor and
`INT_MIN / -1` fault. -/
def cdiv32 (a b : Int) : Except Fault Int :=
  if b = 0 then .error .divByZero
  else if a = INT_MIN ∧ b = -1 then .error .divOverflow
  else .ok (a.tdiv b)

/-- C++ `a % b` on 32-bit `int`: truncating; a zero divisor and
`INT_MIN % -1` fault. -/
def cmod32 (a b : Int) : Except Fault Int :=
  if b = 0 then .error .divByZero
  else if a = INT_MIN ∧ b = -1 then .error .divOverflow
  else .ok (a.tmod b)

/-- The `switch(operation)` of `BinaryOperation::evaluate` on 32-bit `int`. -/
def applyOperation32 (operation : Char) (left_ right_ : Int) : Except Fault Int :=
  if operation = '+' then .ok (wrap (left_ + right_))
  else if operation = '-' then .ok (wrap (left_ - right_))
  else if operation = '*' then .ok (wrap (left_ * right_))
  else if operation = '/' then cdiv32 left_ right_
  else .error .assertFail

/-- `Expression::evaluate` together with `BinaryOperation::evaluate`, on
32-bit `int`. -/
def Expression.evaluate32 : Expression → Except Fault Int
  | .nothing => .ok 0
  | .int x => .ok x
  | .binop left operation right =>
    match left.evaluate32 with
    | .error f => .error f
    | .ok left_ =>
      match right.evaluate32 with
      | .error f => .error f
      | .ok right_ => applyOperation32 operation left_ right_

/-- The body of `find_binary_operation` on 32-bit `int`, with the recursive
call to `challenge` passed in as `rec`. -/
def find_binary_operation_with32 (rec : List Int → Int → Result)
    (candidate : Expression) (others : List Int) (target : Int) : Result :=
  match candidate.evaluate32 with
  | .error f => .error f
  | .ok candidate_value =>
    attempt (rec others (wrap (target - candidate_value)))
      (fun expr => .binop candidate '+' expr) <|
    attempt (rec others (wrap (candidate_value - target)))
      (fun expr => .binop candidate '-' expr) <|
    attempt (rec others (wrap (candidate_value + target)))
      (fun expr => .binop expr '-' candidate) <|
    if target = 0 then
      if candidate_value = 0 then
        .ok (some (.binop candidate '*' .nothing))
      else
        attempt (rec others 0) (fun expr => .binop candidate '*' expr) (.ok none)
    else
      if candidate_value ≠ 0 then
        let divisor_case : Result :=
          attempt (rec others (wrap (candidate_value * target)))
            (fun expr => .binop expr '/' candidate) (.ok none)
        let dividend_case : Result :=
          match cmod32 candidate_value target with
          | .error f => .error f
          | .ok m =>
            if m = 0 then
              match cdiv32 candidate_value target with
              | .error f => .error f
              | .ok q =>
                attempt (rec others q) (fun expr => .binop candidate '/' expr) divisor_case
            else divisor_case
        match cmod32 target candidate_value with
        | .error f => .error f
        | .ok m =>
          if m = 0 then
            match cdiv32 target candidate_value with
            | .error f => .error f
            | .ok q =>
              attempt (rec others q) (fun expr => .binop candidate '*' expr) dividend_case
          else dividend_case
      else .ok none

/-- The body of the single-operand loop of `challenge` at index `i`, on
32-bit `int`. -/
def singleBody32 (rec : List Int → Int → Result) (numbers : List Int) (target : Int)
    (i : Nat) : Result :=
  match index numbers i with
  | .error f => .error f
  | .ok operand =>
    let others := numbers.eraseIdx i
    find_binary_operation_with32 rec (.int operand) others target

/-- The body of the inner pairwise loop of `challenge` at indices `i`, `j`,
on 32-bit `int`. -/
def pairBody32 (rec : List Int → Int → Result) (numbers : List Int) (target : Int)
    (i j : Nat) : Result :=
  match index numbers i with
  | .error f => .error f
  | .ok left =>
    match index numbers j with
    | .error f => .error f
    | .ok right =>
      let others := (numbers.eraseIdx j).eraseIdx i
      let second_division : Result :=
        if left ≠ 0 then
          match cmod32 right left with
          | .error f => .error f
          | .ok m =>
            if m = 0 then
              attempt (find_binary_operation_with32 rec (.binop (.int right) '/' (.int left))
                others target) id (.ok none)
            else .ok none
        else .ok none
      attempt (find_binary_operation_with32 rec (.binop (.int left) '+' (.int right))
        others target) id <|
      attempt (find_binary_operation_with32 rec (.binop (.int left) '-' (.int right))
        others target) id <|
      attempt (find_binary_operation_with32 rec (.binop (.int right) '-' (.int left))
        others target) id <|
      attempt (find_binary_operation_with32 rec (.binop (.int left) '*' (.int right))
        others target) id <|
      if right ≠ 0 then
        match cmod32 left right with
        | .error f => .error f
        | .ok m =>
          if m = 0 then
            attempt (find_binary_operation_with32 rec (.binop (.int left) '/' (.int right))
              others target) id second_division
          else second_division
      else second_division

/-- The body of `challenge` on 32-bit `int`, with the recursive call passed
in as `rec`. -/
def challenge_with32 (rec : List Int → Int → Result) (numbers : List Int) (target : Int) :
    Result :=
  match numbers with
  | [x] => if target = x then .ok (some (.int x)) else .ok none
  | _ =>
    firstSuccess (singleBody32 rec numbers target) (List.range numbers.length) <|
    if numbers.length ≥ 4 then
      firstSuccess
        (fun i => firstSuccess (pairBody32 rec numbers target i)
          (List.range' (i + 1) (numbers.length - (i + 1))) (.ok none))
        (List.range (numbers.length - 1)) (.ok none)
    else .ok none

/-- The search on 32-bit `int` with a bound `fuel` on the depth of the
recursion. -/
def challengeFuel32 : Nat → List Int → Int → Result
  | 0, _, _ => .error .outOfFuel
  | fuel + 1, numbers, target => challenge_with32 (challengeFuel32 fuel) numbers target

/-- The function `challenge` of the source, on 32-bit `int`. -/
def challenge32 (numbers : List Int) (target : Int) : Result :=
  challengeFuel32 (numbers.length + 1) numbers target

/-- The function `find_binary_operation` of the source, on 32-bit `int`. -/
def find_binary_operation32 (candidate : Expression) (others : List Int) (target : Int) :
    Result :=
  find_binary_operation_with32 challenge32 candidate others target

/-- The text `Expression::print` writes for an Empty node. -/
def sentinel : String := "[Anything]"

/-- Every operator of the tree is one of `+`, `-`, `*`, `/`. -/
def Expression.OperatorsValid : Expression → Prop
  | .nothing => True
  | .int _ => True
  | .binop left operation right =>
    (operation = '+' ∨ operation = '-' ∨ operation = '*' ∨ operation = '/') ∧
      left.OperatorsValid ∧ right.OperatorsValid

/-! ## Descriptions of what the search builds -/

/-- The ways `find_binary_operation` builds a returned tree `e` from a
candidate of value `cv` and a sub-search on `others`. -/
def Completes (rec : List Int → Int → Result) (candidate : Expression) (cv : Int)
    (others : List Int) (target : Int) (e : Expression) : Prop :=
  (∃ x, rec others (target - cv) = .ok (some x) ∧ e = .binop candidate '+' x) ∨
  (∃ x, rec others (cv - target) = .ok (some x) ∧ e = .binop candidate '-' x) ∨
  (∃ x, rec others (cv + target) = .ok (some x) ∧ e = .binop x '-' candidate) ∨
  (target = 0 ∧ cv = 0 ∧ e = .binop candidate '*' .nothing) ∨
  (target = 0 ∧ cv ≠ 0 ∧ ∃ x, rec others 0 = .ok (some x) ∧ e = .binop candidate '*' x) ∨
  (target ≠ 0 ∧ cv ≠ 0 ∧ target.tmod cv = 0 ∧
    ∃ x, rec others (target.tdiv cv) = .ok (some x) ∧ e = .binop candidate '*' x) ∨
  (target ≠ 0 ∧ cv ≠ 0 ∧ cv.tmod target = 0 ∧
    ∃ x, rec others (cv.tdiv target) = .ok (some x) ∧ e = .binop candidate '/' x) ∨
  (target ≠ 0 ∧ cv ≠ 0 ∧
    ∃ x, rec others (cv * target) = .ok (some x) ∧ e = .binop x '/' candidate)

/-- The candidates `challenge` hands to `find_binary_operation`, each with its
remainder: a literal `numbers[i]`, or (for four numbers or more) an operation
on `numbers[i]` and `numbers[j]`, `i < j`, a division only when it is exact. -/
inductive Candidate (numbers : List Int) : Expression → List Int → Prop
  | single (i : Nat) (operand : Int) (hi : numbers[i]? = some operand) :
      Candidate numbers (.int operand) (numbers.eraseIdx i)
  | pair (i j : Nat) (left right : Int) (hij : i < j) (hi : numbers[i]? = some left)
      (hj : numbers[j]? = some right) (h4 : 4 ≤ numbers.length) (a b : Int)
      (operation : Char) (hab : (a = left ∧ b = right) ∨ (a = right ∧ b = left))
      (hop : operation = '+' ∨ operation = '-' ∨ operation = '*' ∨
        (operation = '/' ∧ b ≠ 0 ∧ a.tmod b = 0)) :
      Candidate numbers (.binop (.int a) operation (.int b))
        ((numbers.eraseIdx j).eraseIdx i)

/-- What it means for `find_binary_operation` to find nothing around a
candidate of value `cv`: every sub-search it runs reports no solution, and
the degenerate rule does not apply. -/
def NoCompletion (rec : List Int → Int → Result) (cv : Int) (others : List Int)
    (target : Int) : Prop :=
  rec others (target - cv) = .ok none ∧ rec others (cv - target) = .ok none ∧
  rec others (cv + target) = .ok none ∧
  (target = 0 → cv ≠ 0 ∧ rec others 0 = .ok none) ∧
  (target ≠ 0 → cv ≠ 0 →
    (target.tmod cv = 0 → rec others (target.tdiv cv) = .ok none) ∧
    (cv.tmod target = 0 → rec others (cv.tdiv target) = .ok none) ∧
    rec others (cv * target) = .ok none)

/-- A solution of the numbers game for `numbers` and `target`: a tree without
Empty node, with operators among `+ - * /`, every division exact and by a
non-zero divisor, whose leaves are exactly the multiset `numbers` and whose
value is `target`. -/
def Solution (numbers : List Int) (target : Int) (e : Expression) : Prop :=
  e.hasNothing = false ∧ e.OperatorsValid ∧ e.DivisionsExact ∧
    (↑e.literals : Multiset Int) = ↑numbers ∧ e.evaluate = .ok target

/-- A bound on the absolute value of the targets the search reaches from a
list of `n` ones, for `n` up to six. -/
def onesBound : Nat → Int
  | 0 => 0
  | 1 => 1
  | 2 => 2
  | 3 => 3
  | 4 => 4
  | 5 => 6
  | _ => 8

/-- The numbers of a list added up from left to right, as a tree. -/
def sumTree : List Int → Expression
  | [] => .nothing
  | [x] => .int x
  | x :: y :: rest => .binop (.int x) '+' (sumTree (y :: rest))

/-- A sub-search that finds the tree `x` for the target `t0` and nothing for
any other target. -/
def pointRec (t0 : Int) (x : Expression) : List Int → Int → Result :=
  fun _ t => if t = t0 then .ok (some x) else .ok none

/-- A result of the search that is a tree, "no solution", or the fault of
`INT_MIN` divided by `-1`: no other fault. -/
def ReturnsOrTraps (r : Result) : Prop :=
  r = .error .divOverflow ∨ ∃ o, r = .ok o

/-! ## How the control-flow combinators return -/

theorem attempt_eq_some {r : Result} {wrap : Expression → Expression} {rest : Result}
    {e : Expression} :
    attempt r wrap rest = .ok (some e) ↔
      (∃ x, r = .ok (some x) ∧ e = wrap x) ∨ (r = .ok none ∧ rest = .ok (some e)) := by
  rcases r with f | _ | x
  · simp [attempt]
  · simp [attempt]
  · simp [attempt, eq_comm]

theorem attempt_eq_none {r : Result} {wrap : Expression → Expression} {rest : Result} :
    attempt r wrap rest = .ok none ↔ r = .ok none ∧ rest = .ok none := by
  rcases r with f | _ | x <;> simp [attempt]

theorem firstSuccess_eq_some {α : Type} {body : α → Result} {xs : List α} {rest : Result}
    {e : Expression} (h : firstSuccess body xs rest = .ok (some e)) :
    (∃ x ∈ xs, body x = .ok (some e)) ∨ rest = .ok (some e) := by
  induction xs with
  | nil => exact Or.inr h
  | cons x xs ih =>
    rw [firstSuccess, attempt_eq_some] at h
    rcases h with ⟨y, hy, rfl⟩ | ⟨_, h⟩
    · exact Or.inl ⟨x, List.mem_cons_self _ _, hy⟩
    · rcases ih h with ⟨y, hy, hb⟩ | h
      · exact Or.inl ⟨y, List.mem_cons_of_mem _ hy, hb⟩
      · exact Or.inr h

theorem firstSuccess_eq_none {α : Type} {body : α → Result} {xs : List α} {rest : Result} :
    firstSuccess body xs rest = .ok none ↔ (∀ x ∈ xs, body x = .ok none) ∧ rest = .ok none := by
  induction xs with
  | nil => simp [firstSuccess]
  | cons x xs ih => simp [firstSuccess, attempt_eq_none, ih, and_assoc]

theorem firstSuccess_congr {α : Type} {body body2 : α → Result} {xs : List α} {rest : Result}
    (h : ∀ x ∈ xs, body x = body2 x) :
    firstSuccess body xs rest = firstSuccess body2 xs rest := by
  induction xs with
  | nil => rfl
  | cons x xs ih =>
    rw [firstSuccess, firstSuccess, h x (List.mem_cons_self _ _),
      ih (fun y hy => h y (List.mem_cons_of_mem _ hy))]

theorem cmod_of_ne {a b : Int} (h : b ≠ 0) : cmod a b = .ok (a.tmod b) := by
  simp [cmod, h]

theorem cdiv_of_ne {a b : Int} (h : b ≠ 0) : cdiv a b = .ok (a.tdiv b) := by
  simp [cdiv, h]

theorem index_eq_ok {numbers : List Int} {i : Nat} {x : Int} :
    index numbers i = .ok x ↔ numbers[i]? = some x := by
  unfold index
  cases numbers[i]? <;> simp

theorem lt_length_of_getElem? {numbers : List Int} {i : Nat} {x : Int}
    (h : numbers[i]? = some x) : i < numbers.length :=
  (List.getElem?_eq_some_iff.mp h).1

theorem perm_cons_eraseIdx {numbers : List Int} {i : Nat} {x : Int}
    (h : numbers[i]? = some x) : (x :: numbers.eraseIdx i).Perm numbers := by
  induction numbers generalizing i with
  | nil => simp at h
  | cons y ys ih =>
    cases i with
    | zero =>
      simp only [List.getElem?_cons_zero, Option.some.injEq] at h
      subst h
      exact List.Perm.refl _
    | succ i =>
      simp only [List.getElem?_cons_succ] at h
      exact (List.Perm.swap y x _).trans ((ih h).cons y)

theorem getElem?_eraseIdx_lt {numbers : List Int} {i j : Nat} {x : Int} (hij : i < j)
    (h : numbers[i]? = some x) : (numbers.eraseIdx j)[i]? = some x := by
  rw [List.getElem?_eraseIdx_of_lt _ _ _ hij, h]

/-! ## How `find_binary_operation` returns -/

theorem find_binary_operation_with_eq_some {rec : List Int → Int → Result}
    {candidate : Expression} {others : List Int} {target : Int} {e : Expression}
    (h : find_binary_operation_with rec candidate others target = .ok (some e)) :
    ∃ cv, candidate.evaluate = .ok cv ∧ Completes rec candidate cv others target e := by
  unfold find_binary_operation_with at h
  cases hc : candidate.evaluate with
  | error f => rw [hc] at h; cases h
  | ok cv =>
    refine ⟨cv, rfl, ?_⟩
    rw [hc] at h
    simp only [attempt_eq_some] at h
    unfold Completes
    rcases h with ⟨x, hx, rfl⟩ | ⟨-, ⟨x, hx, rfl⟩ | ⟨-, ⟨x, hx, rfl⟩ | ⟨-, h⟩⟩⟩
    · exact Or.inl ⟨x, hx, rfl⟩
    · exact Or.inr (Or.inl ⟨x, hx, rfl⟩)
    · exact Or.inr (Or.inr (Or.inl ⟨x, hx, rfl⟩))
    · right; right; right
      by_cases ht : target = 0
      · by_cases hv : cv = 0
        · simp only [ht, hv, if_true, Except.ok.injEq, Option.some.injEq] at h
          exact Or.inl ⟨ht, hv, h.symm⟩
        · simp only [ht, hv, if_true, if_false, attempt_eq_some, Except.ok.injEq, reduceCtorEq,
            and_false, or_false] at h
          obtain ⟨x, hx, rfl⟩ := h
          exact Or.inr (Or.inl ⟨ht, hv, x, hx, rfl⟩)
      · by_cases hv : cv = 0
        · simp [ht, hv] at h
        · right; right
          simp only [ht, hv, if_false, ne_eq, not_false_eq_true, if_true, cmod_of_ne,
            cdiv_of_ne] at h
          by_cases h1 : target.tmod cv = 0 <;> by_cases h2 : cv.tmod target = 0 <;>
            simp only [h1, h2, if_true, if_false, attempt_eq_some, Except.ok.injEq, reduceCtorEq,
              and_false, or_false] at h
          · rcases h with ⟨x, hx, rfl⟩ | ⟨-, ⟨x, hx, rfl⟩ | ⟨-, x, hx, rfl⟩⟩
            · exact Or.inl ⟨ht, hv, h1, x, hx, rfl⟩
            · exact Or.inr (Or.inl ⟨ht, hv, h2, x, hx, rfl⟩)
            · exact Or.inr (Or.inr ⟨ht, hv, x, hx, rfl⟩)
          · rcases h with ⟨x, hx, rfl⟩ | ⟨-, x, hx, rfl⟩
            · exact Or.inl ⟨ht, hv, h1, x, hx, rfl⟩
            · exact Or.inr (Or.inr ⟨ht, hv, x, hx, rfl⟩)
          · rcases h with ⟨x, hx, rfl⟩ | ⟨-, x, hx, rfl⟩
            · exact Or.inr (Or.inl ⟨ht, hv, h2, x, hx, rfl⟩)
            · exact Or.inr (Or.inr ⟨ht, hv, x, hx, rfl⟩)
          · obtain ⟨x, hx, rfl⟩ := h
            exact Or.inr (Or.inr ⟨ht, hv, x, hx, rfl⟩)

theorem find_binary_operation_with_congr {rec1 rec2 : List Int → Int → Result}
    {others : List Int} (h : ∀ t, rec1 others t = rec2 others t) (candidate : Expression)
    (target : Int) :
    find_binary_operation_with rec1 candidate others target =
      find_binary_operation_with rec2 candidate others target := by
  unfold find_binary_operation_with
  simp only [h]

/-! ## How `challenge` returns -/

theorem singleBody_eq_some {rec : List Int → Int → Result} {numbers : List Int}
    {target : Int} {i : Nat} {e : Expression}
    (h : singleBody rec numbers target i = .ok (some e)) :
    ∃ candidate others, Candidate numbers candidate others ∧
      find_binary_operation_with rec candidate others target = .ok (some e) := by
  unfold singleBody at h
  cases hi : index numbers i with
  | error f => rw [hi] at h; cases h
  | ok operand =>
    rw [hi] at h
    exact ⟨_, _, .single i operand (index_eq_ok.mp hi), h⟩

theorem pairBody_eq_some {rec : List Int → Int → Result} {numbers : List Int}
    {target : Int} {i j : Nat} {e : Expression} (hij : i < j) (h4 : 4 ≤ numbers.length)
    (h : pairBody rec numbers target i j = .ok (some e)) :
    ∃ candidate others, Candidate numbers candidate others ∧
      find_binary_operation_with rec candidate others target = .ok (some e) := by
  unfold pairBody at h
  cases hi : index numbers i with
  | error f => rw [hi] at h; cases h
  | ok left =>
    cases hj : index numbers j with
    | error f => rw [hi, hj] at h; cases h
    | ok right =>
      rw [hi, hj] at h
      have hi2 := index_eq_ok.mp hi
      have hj2 := index_eq_ok.mp hj
      have mk : ∀ (a b : Int) (operation : Char),
          ((a = left ∧ b = right) ∨ (a = right ∧ b = left)) →
          (operation = '+' ∨ operation = '-' ∨ operation = '*' ∨
            (operation = '/' ∧ b ≠ 0 ∧ a.tmod b = 0)) →
          find_binary_operation_with rec (.binop (.int a) operation (.int b))
            ((numbers.eraseIdx j).eraseIdx i) target = .ok (some e) →
          ∃ candidate others, Candidate numbers candidate others ∧
            find_binary_operation_with rec candidate others target = .ok (some e) :=
        fun a b operation hab hop hf =>
          ⟨_, _, .pair i j left right hij hi2 hj2 h4 a b operation hab hop, hf⟩
      have second : ∀ r : Result,
          (if left ≠ 0 then
            match cmod right left with
            | .error f => .error f
            | .ok m =>
              if m = 0 then
                attempt (find_binary_operation_with rec (.binop (.int right) '/' (.int left))
                  ((numbers.eraseIdx j).eraseIdx i) target) id (.ok none)
              else .ok none
          else .ok none) = r → r = .ok (some e) →
          ∃ candidate others, Candidate numbers candidate others ∧
            find_binary_operation_with rec candidate others target = .ok (some e) := by
        intro r hr hre
        subst hr
        by_cases hl : left = 0
        · simp [hl] at hre
        · by_cases hm : right.tmod left = 0
          · simp only [ne_eq, hl, not_false_eq_true, if_true, cmod_of_ne, hm,
              attempt_eq_some, id, Except.ok.injEq, reduceCtorEq, and_false, or_false] at hre
            obtain ⟨x, hx, rfl⟩ := hre
            exact mk right left '/' (Or.inr ⟨rfl, rfl⟩)
              (Or.inr (Or.inr (Or.inr ⟨rfl, hl, hm⟩))) hx
          · simp [hl, cmod_of_ne, hm] at hre
      simp only [attempt_eq_some, id] at h
      rcases h with ⟨x, hx, rfl⟩ | ⟨-, ⟨x, hx, rfl⟩ | ⟨-, ⟨x, hx, rfl⟩ |
        ⟨-, ⟨x, hx, rfl⟩ | ⟨-, h⟩⟩⟩⟩
      · exact mk left right '+' (Or.inl ⟨rfl, rfl⟩) (Or.inl rfl) hx
      · exact mk left right '-' (Or.inl ⟨rfl, rfl⟩) (Or.inr (Or.inl rfl)) hx
      · exact mk right left '-' (Or.inr ⟨rfl, rfl⟩) (Or.inr (Or.inl rfl)) hx
      · exact mk left right '*' (Or.inl ⟨rfl, rfl⟩) (Or.inr (Or.inr (Or.inl rfl))) hx
      · by_cases hr : right = 0
        · simp only [ne_eq, hr, not_true_eq_false, if_false] at h
          exact second _ (by simp only [ne_eq, hr]) h
        · by_cases hm : left.tmod right = 0
          · simp only [ne_eq, hr, not_false_eq_true, if_true, cmod_of_ne, hm,
              attempt_eq_some, id] at h
            rcases h with ⟨x, hx, rfl⟩ | ⟨-, h⟩
            · exact mk left right '/' (Or.inl ⟨rfl, rfl⟩)
                (Or.inr (Or.inr (Or.inr ⟨rfl, hr, hm⟩))) hx
            · exact second _ rfl h
          · simp only [ne_eq, hr, not_false_eq_true, if_true, cmod_of_ne, hm, if_false] at h
            exact second _ rfl h

theorem challenge_with_eq_some {rec : List Int → Int → Result} {numbers : List Int}
    {target : Int} {e : Expression} (h : challenge_with rec numbers target = .ok (some e)) :
    (numbers = [target] ∧ e = .int target) ∨
    ∃ candidate others, Candidate numbers candidate others ∧
      find_binary_operation_with rec candidate others target = .ok (some e) := by
  unfold challenge_with at h
  split at h
  · next x =>
    left
    by_cases ht : target = x
    · simp only [ht, if_true, Except.ok.injEq, Option.some.injEq] at h
      exact ⟨by rw [ht], by rw [ht, h]⟩
    · simp [ht] at h
  · right
    rcases firstSuccess_eq_some h with ⟨i, -, hb⟩ | h
    · exact singleBody_eq_some hb
    · by_cases h4 : numbers.length ≥ 4
      · simp only [h4, if_true] at h
        rcases firstSuccess_eq_some h with ⟨i, -, hb⟩ | h
        · rcases firstSuccess_eq_some hb with ⟨j, hj, hb⟩ | h
          · have hij : i < j := by
              have := (List.mem_range'_1.mp hj).1
              omega
            exact pairBody_eq_some hij h4 hb
          · cases h
        · cases h
      · simp [h4] at h

theorem Candidate.length_lt {numbers : List Int} {candidate : Expression}
    {others : List Int} (h : Candidate numbers candidate others) :
    others.length < numbers.length := by
  cases h with
  | single i operand hi =>
    have := lt_length_of_getElem? hi
    rw [List.length_eraseIdx_of_lt this]
    omega
  | pair i j left right hij hi hj h4 a b operation hab hop =>
    have := lt_length_of_getElem? hj
    have h2 := List.length_eraseIdx_le (numbers.eraseIdx j) i
    rw [List.length_eraseIdx_of_lt this] at h2
    omega

/-! ## Fuel: one unit more than the length of the list is enough -/

theorem singleBody_congr {rec1 rec2 : List Int → Int → Result} {numbers : List Int}
    (h : ∀ others t, others.length < numbers.length → rec1 others t = rec2 others t)
    (target : Int) (i : Nat) :
    singleBody rec1 numbers target i = singleBody rec2 numbers target i := by
  unfold singleBody
  cases hi : index numbers i with
  | error f => rfl
  | ok operand =>
    have hlt := (Candidate.single i operand (index_eq_ok.mp hi)).length_lt
    exact find_binary_operation_with_congr (fun t => h _ t hlt) _ _

theorem pairBody_congr {rec1 rec2 : List Int → Int → Result} {numbers : List Int}
    (h : ∀ others t, others.length < numbers.length → rec1 others t = rec2 others t)
    (target : Int) (i j : Nat) :
    pairBody rec1 numbers target i j = pairBody rec2 numbers target i j := by
  unfold pairBody
  cases hi : index numbers i with
  | error f => rfl
  | ok left =>
    cases hj : index numbers j with
    | error f => rfl
    | ok right =>
      have hlt : ((numbers.eraseIdx j).eraseIdx i).length < numbers.length := by
        have := lt_length_of_getElem? (index_eq_ok.mp hj)
        have h2 := List.length_eraseIdx_le (numbers.eraseIdx j) i
        rw [List.length_eraseIdx_of_lt this] at h2
        omega
      simp only [find_binary_operation_with_congr (fun t => h _ t hlt)]

theorem challenge_with_congr {rec1 rec2 : List Int → Int → Result} {numbers : List Int}
    (h : ∀ others t, others.length < numbers.length → rec1 others t = rec2 others t)
    (target : Int) :
    challenge_with rec1 numbers target = challenge_with rec2 numbers target := by
  have hs : singleBody rec1 numbers target = singleBody rec2 numbers target :=
    funext (singleBody_congr h target)
  have hp : pairBody rec1 numbers target = pairBody rec2 numbers target :=
    funext fun i => funext (pairBody_congr h target i)
  unfold challenge_with
  rw [hs, hp]

theorem challengeFuel_eq_challenge (fuel : Nat) :
    ∀ (numbers : List Int) (target : Int), numbers.length < fuel →
      challengeFuel fuel numbers target = challenge numbers target := by
  induction fuel using Nat.strong_induction_on with
  | _ fuel ih =>
    intro numbers target hlen
    cases fuel with
    | zero => omega
    | succ k =>
      unfold challenge
      rw [challengeFuel, challengeFuel]
      apply challenge_with_congr
      intro others t hlt
      rw [ih k (Nat.lt_succ_self k) others t (by omega),
        ih numbers.length hlen others t hlt]

/-- The recursion of the source: `challenge` is its body run on itself. -/
theorem challenge_eq (numbers : List Int) (target : Int) :
    challenge numbers target = challenge_with challenge numbers target := by
  show challengeFuel (numbers.length + 1) numbers target = _
  rw [challengeFuel]
  exact challenge_with_congr
    (fun others t hlt => challengeFuel_eq_challenge numbers.length others t hlt) target

theorem challenge_eq_some {numbers : List Int} {target : Int} {e : Expression}
    (h : challenge numbers target = .ok (some e)) :
    (numbers = [target] ∧ e = .int target) ∨
    ∃ candidate others cv, Candidate numbers candidate others ∧
      candidate.evaluate = .ok cv ∧ Completes challenge candidate cv others target e := by
  rw [challenge_eq] at h
  rcases challenge_with_eq_some h with h | ⟨candidate, others, hc, hf⟩
  · exact Or.inl h
  · obtain ⟨cv, hcv, hcomp⟩ := find_binary_operation_with_eq_some hf
    exact Or.inr ⟨candidate, others, cv, hc, hcv, hcomp⟩

/-- Induction over the returned trees of `challenge`: a property that holds
of the base-case literal and is carried from the sub-search to the tree built
around a candidate holds of every returned tree. -/
theorem challenge_induction {P : List Int → Int → Expression → Prop}
    (base : ∀ t, P [t] t (.int t))
    (step : ∀ numbers target candidate others cv e, Candidate numbers candidate others →
      candidate.evaluate = .ok cv →
      (∀ t x, challenge others t = .ok (some x) → P others t x) →
      Completes challenge candidate cv others target e → P numbers target e) :
    ∀ numbers target e, challenge numbers target = .ok (some e) → P numbers target e := by
  suffices H : ∀ n (numbers : List Int), numbers.length = n → ∀ target e,
      challenge numbers target = .ok (some e) → P numbers target e from
    fun numbers => H numbers.length numbers rfl
  intro n
  induction n using Nat.strong_induction_on with
  | _ n ih =>
    intro numbers hn target e he
    rcases challenge_eq_some he with ⟨rfl, rfl⟩ | ⟨candidate, others, cv, hc, hcv, hcomp⟩
    · exact base target
    · exact step numbers target candidate others cv e hc hcv
        (fun t x hx => ih others.length (hn ▸ hc.length_lt) others rfl t x hx) hcomp

/-! ## Evaluation of the trees the search builds -/

theorem evaluate_binop {left right : Expression} {a b : Int} (operation : Char)
    (hl : left.evaluate = .ok a) (hr : right.evaluate = .ok b) :
    (Expression.binop left operation right).evaluate = applyOperation operation a b := by
  simp [Expression.evaluate, hl, hr]

theorem Candidate.evaluate_ok {numbers : List Int} {candidate : Expression}
    {others : List Int} (h : Candidate numbers candidate others) :
    ∃ cv, candidate.evaluate = .ok cv := by
  cases h with
  | single i operand hi => exact ⟨operand, rfl⟩
  | pair i j left right hij hi hj h4 a b operation hab hop =>
    rcases hop with rfl | rfl | rfl | ⟨rfl, hb, -⟩
    · exact ⟨a + b, rfl⟩
    · exact ⟨a - b, rfl⟩
    · exact ⟨a * b, rfl⟩
    · exact ⟨a.tdiv b, by simp [Expression.evaluate, applyOperation, cdiv, hb]⟩

theorem Completes.evaluate {rec : List Int → Int → Result} {candidate : Expression}
    {cv : Int} {others : List Int} {target : Int} {e : Expression}
    (hcv : candidate.evaluate = .ok cv)
    (ih : ∀ t x, rec others t = .ok (some x) → x.evaluate = .ok t)
    (h : Completes rec candidate cv others target e) : e.evaluate = .ok target := by
  rcases h with ⟨x, hx, rfl⟩ | ⟨x, hx, rfl⟩ | ⟨x, hx, rfl⟩ | ⟨ht, hv, rfl⟩ |
    ⟨ht, hv, x, hx, rfl⟩ | ⟨ht, hv, hm, x, hx, rfl⟩ | ⟨ht, hv, hm, x, hx, rfl⟩ |
    ⟨ht, hv, x, hx, rfl⟩
  · rw [evaluate_binop _ hcv (ih _ _ hx)]
    simp [applyOperation]
  · rw [evaluate_binop _ hcv (ih _ _ hx)]
    simp [applyOperation]
  · rw [evaluate_binop _ (ih _ _ hx) hcv]
    simp [applyOperation]
  · rw [evaluate_binop _ hcv (rfl : Expression.nothing.evaluate = .ok 0)]
    simp [applyOperation, ht]
  · rw [evaluate_binop _ hcv (ih _ _ hx)]
    simp [applyOperation, ht]
  · rw [evaluate_binop _ hcv (ih _ _ hx)]
    simp [applyOperation, Int.mul_tdiv_cancel_of_tmod_eq_zero hm]
  · have hq : cv.tdiv target ≠ 0 := by
      intro h0
      have := Int.mul_tdiv_cancel_of_tmod_eq_zero hm
      rw [h0, mul_zero] at this
      exact hv this.symm
    have hmul : cv = target * cv.tdiv target := (Int.mul_tdiv_cancel_of_tmod_eq_zero hm).symm
    have hdiv : cv.tdiv (cv.tdiv target) = target := by
      have := Int.mul_tdiv_cancel target hq
      rwa [← hmul] at this
    rw [evaluate_binop _ hcv (ih _ _ hx)]
    simp [applyOperation, cdiv, hq, hdiv]
  · rw [evaluate_binop _ (ih _ _ hx) hcv]
    simp [applyOperation, cdiv, hv]

theorem challenge_evaluate :
    ∀ numbers target e, challenge numbers target = .ok (some e) → e.evaluate = .ok target :=
  challenge_induction (P := fun _ t e => e.evaluate = .ok t) (fun _ => rfl)
    (fun _ _ _ _ _ _ _ hcv ih hcomp => hcomp.evaluate hcv ih)

theorem find_binary_operation_evaluate {candidate : Expression} {others : List Int}
    {target : Int} {e : Expression}
    (h : find_binary_operation candidate others target = .ok (some e)) :
    e.evaluate = .ok target := by
  obtain ⟨cv, hcv, hcomp⟩ := find_binary_operation_with_eq_some h
  exact hcomp.evaluate hcv (challenge_evaluate others)

/-! ## Exact divisions -/

theorem Candidate.divisionsExact {numbers : List Int} {candidate : Expression}
    {others : List Int} (h : Candidate numbers candidate others) :
    candidate.DivisionsExact := by
  cases h with
  | single i operand hi => trivial
  | pair i j left right hij hi hj h4 a b operation hab hop =>
    refine ⟨trivial, trivial, fun hdiv => ?_⟩
    subst hdiv
    rcases hop with h | h | h | ⟨-, hb, hm⟩
    · exact absurd h (by decide)
    · exact absurd h (by decide)
    · exact absurd h (by decide)
    · exact ⟨a, b, rfl, rfl, hb, hm⟩

theorem Completes.divisionsExact_result {rec : List Int → Int → Result} {candidate : Expression}
    {cv : Int} {others : List Int} {target : Int} {e : Expression}
    (hcv : candidate.evaluate = .ok cv) (hcand : candidate.DivisionsExact)
    (ih : ∀ t x, rec others t = .ok (some x) → x.evaluate = .ok t ∧ x.DivisionsExact)
    (h : Completes rec candidate cv others target e) : e.DivisionsExact := by
  rcases h with ⟨x, hx, rfl⟩ | ⟨x, hx, rfl⟩ | ⟨x, hx, rfl⟩ | ⟨ht, hv, rfl⟩ |
    ⟨ht, hv, x, hx, rfl⟩ | ⟨ht, hv, hm, x, hx, rfl⟩ | ⟨ht, hv, hm, x, hx, rfl⟩ |
    ⟨ht, hv, x, hx, rfl⟩
  · exact ⟨hcand, (ih _ _ hx).2, fun h => absurd h (by decide)⟩
  · exact ⟨hcand, (ih _ _ hx).2, fun h => absurd h (by decide)⟩
  · exact ⟨(ih _ _ hx).2, hcand, fun h => absurd h (by decide)⟩
  · exact ⟨hcand, trivial, fun h => absurd h (by decide)⟩
  · exact ⟨hcand, (ih _ _ hx).2, fun h => absurd h (by decide)⟩
  · exact ⟨hcand, (ih _ _ hx).2, fun h => absurd h (by decide)⟩
  · have hmul : target * cv.tdiv target = cv := Int.mul_tdiv_cancel_of_tmod_eq_zero hm
    have hq : cv.tdiv target ≠ 0 := by
      intro h0
      rw [h0, mul_zero] at hmul
      exact hv hmul.symm
    refine ⟨hcand, (ih _ _ hx).2, fun _ => ⟨cv, cv.tdiv target, hcv, (ih _ _ hx).1, hq, ?_⟩⟩
    exact Int.tmod_eq_zero_of_dvd ⟨target, by rw [mul_comm]; exact hmul.symm⟩
  · exact ⟨(ih _ _ hx).2, hcand, fun _ =>
      ⟨cv * target, cv, (ih _ _ hx).1, hcv, hv, Int.mul_tmod_right _ _⟩⟩

theorem challenge_divisionsExact :
    ∀ numbers target e, challenge numbers target = .ok (some e) →
      e.evaluate = .ok target ∧ e.DivisionsExact :=
  challenge_induction (P := fun _ t e => e.evaluate = .ok t ∧ e.DivisionsExact)
    (fun _ => ⟨rfl, trivial⟩)
    (fun _ _ _ _ _ _ hc hcv ih hcomp =>
      ⟨hcomp.evaluate hcv (fun t x hx => (ih t x hx).1),
        hcomp.divisionsExact_result hcv hc.divisionsExact ih⟩)

/-! ## The numbers a returned tree uses -/

theorem Candidate.hasNothing {numbers : List Int} {candidate : Expression}
    {others : List Int} (h : Candidate numbers candidate others) :
    candidate.hasNothing = false := by
  cases h <;> rfl

theorem Candidate.perm {numbers : List Int} {candidate : Expression}
    {others : List Int} (h : Candidate numbers candidate others) :
    (candidate.literals ++ others).Perm numbers := by
  cases h with
  | single i operand hi => exact perm_cons_eraseIdx hi
  | pair i j left right hij hi hj h4 a b operation hab hop =>
    have p1 : (right :: numbers.eraseIdx j).Perm numbers := perm_cons_eraseIdx hj
    have p2 : (left :: (numbers.eraseIdx j).eraseIdx i).Perm (numbers.eraseIdx j) :=
      perm_cons_eraseIdx (getElem?_eraseIdx_lt hij hi)
    have p3 : (right :: left :: (numbers.eraseIdx j).eraseIdx i).Perm numbers :=
      (p2.cons right).trans p1
    rcases hab with ⟨rfl, rfl⟩ | ⟨rfl, rfl⟩
    · exact (List.Perm.swap _ _ _).trans p3
    · exact p3

theorem Completes.perm_result {rec : List Int → Int → Result} {candidate : Expression}
    {cv : Int} {others numbers : List Int} {target : Int} {e : Expression}
    (hcand : (candidate.literals ++ others).Perm numbers)
    (ih : ∀ t x, rec others t = .ok (some x) → x.hasNothing = false →
      x.literals.Perm others)
    (h : Completes rec candidate cv others target e) (he : e.hasNothing = false) :
    e.literals.Perm numbers := by
  have key : ∀ x : Expression, x.literals.Perm others →
      (candidate.literals ++ x.literals).Perm numbers ∧
      (x.literals ++ candidate.literals).Perm numbers := fun x hx =>
    ⟨(List.Perm.append_left _ hx).trans hcand,
      List.perm_append_comm.trans ((List.Perm.append_left _ hx).trans hcand)⟩
  rcases h with ⟨x, hx, rfl⟩ | ⟨x, hx, rfl⟩ | ⟨x, hx, rfl⟩ | ⟨ht, hv, rfl⟩ |
    ⟨ht, hv, x, hx, rfl⟩ | ⟨ht, hv, hm, x, hx, rfl⟩ | ⟨ht, hv, hm, x, hx, rfl⟩ |
    ⟨ht, hv, x, hx, rfl⟩ <;>
    simp only [Expression.hasNothing, Bool.or_eq_false_iff, Bool.true_eq_false,
      and_false] at he
  · exact (key x (ih _ x hx he.2)).1
  · exact (key x (ih _ x hx he.2)).1
  · exact (key x (ih _ x hx he.1)).2
  · exact (key x (ih _ x hx he.2)).1
  · exact (key x (ih _ x hx he.2)).1
  · exact (key x (ih _ x hx he.2)).1
  · exact (key x (ih _ x hx he.1)).2

theorem challenge_literals_perm :
    ∀ numbers target e, challenge numbers target = .ok (some e) →
      e.hasNothing = false → e.literals.Perm numbers :=
  challenge_induction (P := fun numbers _ e => e.hasNothing = false → e.literals.Perm numbers)
    (fun _ _ => List.Perm.refl _)
    (fun _ _ _ _ _ _ hc _ ih hcomp => hcomp.perm_result hc.perm ih)

/-! ## Operators and Empty nodes of a returned tree -/

theorem Candidate.operatorsValid {numbers : List Int} {candidate : Expression}
    {others : List Int} (h : Candidate numbers candidate others) :
    candidate.OperatorsValid := by
  cases h with
  | single i operand hi => trivial
  | pair i j left right hij hi hj h4 a b operation hab hop =>
    refine ⟨?_, trivial, trivial⟩
    rcases hop with h | h | h | ⟨h, -⟩
    · exact Or.inl h
    · exact Or.inr (Or.inl h)
    · exact Or.inr (Or.inr (Or.inl h))
    · exact Or.inr (Or.inr (Or.inr h))

theorem Completes.operatorsValid_result {rec : List Int → Int → Result} {candidate : Expression}
    {cv : Int} {others : List Int} {target : Int} {e : Expression}
    (hcand : candidate.OperatorsValid)
    (ih : ∀ t x, rec others t = .ok (some x) → x.OperatorsValid)
    (h : Completes rec candidate cv others target e) : e.OperatorsValid := by
  rcases h with ⟨x, hx, rfl⟩ | ⟨x, hx, rfl⟩ | ⟨x, hx, rfl⟩ | ⟨ht, hv, rfl⟩ |
    ⟨ht, hv, x, hx, rfl⟩ | ⟨ht, hv, hm, x, hx, rfl⟩ | ⟨ht, hv, hm, x, hx, rfl⟩ |
    ⟨ht, hv, x, hx, rfl⟩
  · exact ⟨Or.inl rfl, hcand, ih _ _ hx⟩
  · exact ⟨Or.inr (Or.inl rfl), hcand, ih _ _ hx⟩
  · exact ⟨Or.inr (Or.inl rfl), ih _ _ hx, hcand⟩
  · exact ⟨Or.inr (Or.inr (Or.inl rfl)), hcand, trivial⟩
  · exact ⟨Or.inr (Or.inr (Or.inl rfl)), hcand, ih _ _ hx⟩
  · exact ⟨Or.inr (Or.inr (Or.inl rfl)), hcand, ih _ _ hx⟩
  · exact ⟨Or.inr (Or.inr (Or.inr rfl)), hcand, ih _ _ hx⟩
  · exact ⟨Or.inr (Or.inr (Or.inr rfl)), ih _ _ hx, hcand⟩

theorem challenge_operatorsValid :
    ∀ numbers target e, challenge numbers target = .ok (some e) → e.OperatorsValid :=
  challenge_induction (P := fun _ _ e => e.OperatorsValid) (fun _ => trivial)
    (fun _ _ _ _ _ _ hc _ ih hcomp => hcomp.operatorsValid_result hc.operatorsValid ih)

theorem Completes.hasNothing_false {rec : List Int → Int → Result}
    {candidate : Expression} {cv : Int} {others : List Int} {target : Int} {e : Expression}
    (hcand : candidate.hasNothing = false) (hdeg : ¬(target = 0 ∧ cv = 0))
    (ih : ∀ t x, rec others t = .ok (some x) → x.hasNothing = false)
    (h : Completes rec candidate cv others target e) : e.hasNothing = false := by
  rcases h with ⟨x, hx, rfl⟩ | ⟨x, hx, rfl⟩ | ⟨x, hx, rfl⟩ | ⟨ht, hv, rfl⟩ |
    ⟨ht, hv, x, hx, rfl⟩ | ⟨ht, hv, hm, x, hx, rfl⟩ | ⟨ht, hv, hm, x, hx, rfl⟩ |
    ⟨ht, hv, x, hx, rfl⟩
  case inr.inr.inr.inl => exact absurd ⟨ht, hv⟩ hdeg
  all_goals simp [Expression.hasNothing, hcand, ih _ _ hx]

theorem challenge_singleton (n t : Int) :
    challenge [n] t = if n = t then .ok (some (.int n)) else .ok none := by
  rw [challenge_eq, challenge_with]
  by_cases hnt : n = t
  · simp [hnt]
  · simp [hnt, Ne.symm hnt]

theorem Candidate.subset {numbers : List Int} {candidate : Expression}
    {others : List Int} (h : Candidate numbers candidate others) :
    (∀ x ∈ candidate.literals, x ∈ numbers) ∧ (∀ x ∈ others, x ∈ numbers) :=
  ⟨fun _ hx => h.perm.subset (List.mem_append_left _ hx),
    fun _ hx => h.perm.subset (List.mem_append_right _ hx)⟩

theorem challenge_hasNothing_of_length_le_one {numbers : List Int} {target : Int}
    {e : Expression} (hlen : numbers.length ≤ 1)
    (h : challenge numbers target = .ok (some e)) : e.hasNothing = false := by
  rcases challenge_eq_some h with ⟨-, rfl⟩ | ⟨candidate, others, cv, hc, -, -⟩
  · rfl
  · have := hc.length_lt
    cases hc with
    | single i operand hi =>
      have hi2 := lt_length_of_getElem? hi
      have h1 : numbers.length = 1 := by omega
      obtain ⟨y, rfl⟩ := List.length_eq_one.mp h1
      rw [challenge_singleton] at h
      split at h
      · simp only [Except.ok.injEq, Option.some.injEq] at h
        rw [← h]; rfl
      · simp at h
    | pair i j left right hij hi hj h4 a b operation hab hop => omega

theorem challenge_hasNothing_of_length_le_two {numbers : List Int} {target : Int}
    {e : Expression} (ht : target ≠ 0) (h2 : numbers.length ≤ 2)
    (h : challenge numbers target = .ok (some e)) : e.hasNothing = false := by
  rcases challenge_eq_some h with ⟨-, rfl⟩ | ⟨candidate, others, cv, hc, -, hcomp⟩
  · rfl
  · have hlt := hc.length_lt
    exact hcomp.hasNothing_false hc.hasNothing (fun hdeg => ht hdeg.1)
      (fun t x hx => challenge_hasNothing_of_length_le_one (by omega) hx)

/-! ## What `print` writes -/

theorem ite_ne_of {c : Prop} [Decidable c] {a b x : Char} (ha : a ≠ x) (hb : b ≠ x) :
    (if c then a else b) ≠ x := by
  split <;> assumption

theorem digitChar_ne_bracket (n : Nat) : Nat.digitChar n ≠ '[' := by
  unfold Nat.digitChar
  repeat (apply ite_ne_of (by decide))
  decide

theorem toDigitsCore_bracket (fuel : Nat) : ∀ (n : Nat) (ds : List Char), '[' ∉ ds →
    '[' ∉ Nat.toDigitsCore 10 fuel n ds := by
  induction fuel with
  | zero => intro n ds h; simpa [Nat.toDigitsCore] using h
  | succ k ih =>
    intro n ds h
    have hd : '[' ∉ Nat.digitChar (n % 10) :: ds := by
      simp only [List.mem_cons, not_or]
      exact ⟨(digitChar_ne_bracket _).symm, h⟩
    simp only [Nat.toDigitsCore]
    split
    · exact hd
    · exact ih _ _ hd

theorem nat_repr_bracket (n : Nat) : '[' ∉ (Nat.repr n).data := by
  simp only [Nat.repr, List.asString]
  exact toDigitsCore_bracket _ _ _ (by simp)

theorem int_toString_bracket (x : Int) : '[' ∉ (toString x).data := by
  cases x with
  | ofNat m => exact nat_repr_bracket m
  | negSucc m =>
    show '[' ∉ ("-" ++ Nat.repr (m + 1)).data
    rw [String.data_append]
    simp only [List.mem_append, not_or]
    exact ⟨by decide, nat_repr_bracket _⟩

theorem print_bracket {e : Expression} (hn : e.hasNothing = false)
    (hop : e.OperatorsValid) : '[' ∉ e.print.data := by
  induction e with
  | nothing => cases hn
  | int x => exact int_toString_bracket x
  | binop left operation right ihl ihr =>
    simp only [Expression.hasNothing, Bool.or_eq_false_iff] at hn
    obtain ⟨ho, hl, hr⟩ := hop
    have h1 := ihl hn.1 hl
    have h2 := ihr hn.2 hr
    have h3 : operation ≠ '[' := by
      rcases ho with rfl | rfl | rfl | rfl <;> decide
    simp only [Expression.print, String.data_append, String.data_singleton, List.mem_append,
      List.mem_singleton, not_or]
    exact ⟨⟨⟨⟨⟨⟨by decide, h1⟩, by decide⟩, h3.symm⟩, by decide⟩, h2⟩, by decide⟩

theorem print_sentinel {e : Expression} (hn : e.hasNothing = false)
    (hop : e.OperatorsValid) : ¬(sentinel.data <:+: e.print.data) :=
  fun h => print_bracket hn hop (h.subset (by decide))

/-! ## How the search reports no solution -/

theorem find_binary_operation_with_eq_none {rec : List Int → Int → Result}
    {candidate : Expression} {others : List Int} {target cv : Int}
    (hcv : candidate.evaluate = .ok cv)
    (h : find_binary_operation_with rec candidate others target = .ok none) :
    NoCompletion rec cv others target := by
  unfold find_binary_operation_with at h
  rw [hcv] at h
  simp only [attempt_eq_none] at h
  obtain ⟨h1, h2, h3, h⟩ := h
  refine ⟨h1, h2, h3, ?_, ?_⟩
  · intro ht
    by_cases hv : cv = 0
    · simp [ht, hv] at h
    · simp only [ht, hv, if_true, if_false, attempt_eq_none, and_true] at h
      exact ⟨hv, h⟩
  · intro ht hv
    simp only [ht, hv, if_false, ne_eq, not_false_eq_true, if_true, cmod_of_ne,
      cdiv_of_ne] at h
    by_cases hm1 : target.tmod cv = 0 <;> by_cases hm2 : cv.tmod target = 0 <;>
      simp only [hm1, hm2, if_true, if_false, attempt_eq_none, and_true] at h
    · exact ⟨fun _ => h.1, fun _ => h.2.1, h.2.2⟩
    · exact ⟨fun _ => h.1, fun hc => absurd hc hm2, h.2⟩
    · exact ⟨fun hc => absurd hc hm1, fun _ => h.1, h.2⟩
    · exact ⟨fun hc => absurd hc hm1, fun hc => absurd hc hm2, h⟩

theorem pairBody_eq_none {rec : List Int → Int → Result} {numbers : List Int}
    {target : Int} {i j : Nat} {left right a b : Int} {operation : Char}
    (hi : numbers[i]? = some left) (hj : numbers[j]? = some right)
    (hab : (a = left ∧ b = right) ∨ (a = right ∧ b = left))
    (hop : operation = '+' ∨ operation = '-' ∨ operation = '*' ∨
      (operation = '/' ∧ b ≠ 0 ∧ a.tmod b = 0))
    (h : pairBody rec numbers target i j = .ok none) :
    ∃ candidate, candidate.evaluate = (Expression.binop (.int a) operation (.int b)).evaluate ∧
      find_binary_operation_with rec candidate ((numbers.eraseIdx j).eraseIdx i) target =
        .ok none := by
  unfold pairBody at h
  rw [index_eq_ok.mpr hi, index_eq_ok.mpr hj] at h
  simp only [attempt_eq_none] at h
  obtain ⟨h1, h2, h3, h4, h⟩ := h
  have hd1 : right ≠ 0 → left.tmod right = 0 →
      find_binary_operation_with rec (.binop (.int left) '/' (.int right))
        ((numbers.eraseIdx j).eraseIdx i) target = .ok none := by
    intro hr hm
    simp only [ne_eq, hr, not_false_eq_true, if_true, cmod_of_ne, hm, attempt_eq_none] at h
    exact h.1
  have hd2 : left ≠ 0 → right.tmod left = 0 →
      find_binary_operation_with rec (.binop (.int right) '/' (.int left))
        ((numbers.eraseIdx j).eraseIdx i) target = .ok none := by
    intro hl hm
    by_cases hr : right = 0
    · simp only [ne_eq, hr, not_true_eq_false, if_false, hl, not_false_eq_true, if_true,
        cmod_of_ne, hr ▸ hm, attempt_eq_none, and_true] at h
      rw [hr]; exact h
    · by_cases hm1 : left.tmod right = 0
      · simp only [ne_eq, hr, not_false_eq_true, if_true, cmod_of_ne, hm1, hl, hm,
          attempt_eq_none, and_true] at h
        exact h.2
      · simp only [ne_eq, hr, not_false_eq_true, if_true, cmod_of_ne, hm1, if_false, hl, hm,
          attempt_eq_none, and_true] at h
        exact h
  rcases hab with ⟨rfl, rfl⟩ | ⟨rfl, rfl⟩
  · rcases hop with rfl | rfl | rfl | ⟨rfl, hb, hm⟩
    · exact ⟨_, rfl, h1⟩
    · exact ⟨_, rfl, h2⟩
    · exact ⟨_, rfl, h4⟩
    · exact ⟨_, rfl, hd1 hb hm⟩
  · rcases hop with rfl | rfl | rfl | ⟨rfl, hb, hm⟩
    · exact ⟨_, by simp [Expression.evaluate, applyOperation, add_comm], h1⟩
    · exact ⟨_, rfl, h3⟩
    · exact ⟨_, by simp [Expression.evaluate, applyOperation, mul_comm], h4⟩
    · exact ⟨_, rfl, hd2 hb hm⟩

theorem challenge_with_eq_none {rec : List Int → Int → Result} {numbers : List Int}
    {target : Int} (hlen : 2 ≤ numbers.length)
    (h : challenge_with rec numbers target = .ok none) :
    (∀ i operand, numbers[i]? = some operand →
      find_binary_operation_with rec (.int operand) (numbers.eraseIdx i) target = .ok none) ∧
    (4 ≤ numbers.length → ∀ i j, i < j → j < numbers.length →
      pairBody rec numbers target i j = .ok none) := by
  unfold challenge_with at h
  split at h
  · simp at hlen
  · rw [firstSuccess_eq_none] at h
    obtain ⟨hs, hp⟩ := h
    constructor
    · intro i operand hi
      have := hs i (List.mem_range.mpr (lt_length_of_getElem? hi))
      unfold singleBody at this
      rw [index_eq_ok.mpr hi] at this
      exact this
    · intro h4 i j hij hj
      simp only [ge_iff_le, h4, if_true, firstSuccess_eq_none, and_true] at hp
      exact hp i (List.mem_range.mpr (by omega)) j (List.mem_range'_1.mpr (by omega))

/-! ## Trees that solve the game -/

theorem literals_pos {e : Expression} (hn : e.hasNothing = false) :
    0 < e.literals.length := by
  induction e with
  | nothing => cases hn
  | int x => simp [Expression.literals]
  | binop left operation right ihl _ =>
    simp only [Expression.hasNothing, Bool.or_eq_false_iff] at hn
    have := ihl hn.1
    simp only [Expression.literals, List.length_append]
    omega

theorem eq_int_of_one_leaf {e : Expression} (hn : e.hasNothing = false)
    (h1 : e.literals.length = 1) : ∃ x, e = .int x := by
  cases e with
  | nothing => cases hn
  | int x => exact ⟨x, rfl⟩
  | binop left operation right =>
    simp only [Expression.hasNothing, Bool.or_eq_false_iff] at hn
    have hl := literals_pos hn.1
    have hr := literals_pos hn.2
    simp only [Expression.literals, List.length_append] at h1
    omega

theorem eq_pair_of_two_leaves {e : Expression} (hn : e.hasNothing = false)
    (h2 : e.literals.length = 2) :
    ∃ a operation b, e = .binop (.int a) operation (.int b) := by
  cases e with
  | nothing => cases hn
  | int x => simp [Expression.literals] at h2
  | binop left operation right =>
    simp only [Expression.hasNothing, Bool.or_eq_false_iff] at hn
    have hl := literals_pos hn.1
    have hr := literals_pos hn.2
    simp only [Expression.literals, List.length_append] at h2
    obtain ⟨a, rfl⟩ := eq_int_of_one_leaf hn.1 (by omega)
    obtain ⟨b, rfl⟩ := eq_int_of_one_leaf hn.2 (by omega)
    exact ⟨a, operation, b, rfl⟩

theorem evaluate_ok_of_valid {e : Expression} (hop : e.OperatorsValid)
    (hd : e.DivisionsExact) : ∃ v, e.evaluate = .ok v := by
  induction e with
  | nothing => exact ⟨0, rfl⟩
  | int x => exact ⟨x, rfl⟩
  | binop left operation right ihl ihr =>
    obtain ⟨ho, hol, hor⟩ := hop
    obtain ⟨hdl, hdr, hdiv⟩ := hd
    obtain ⟨a, ha⟩ := ihl hol hdl
    obtain ⟨b, hb⟩ := ihr hor hdr
    rw [evaluate_binop _ ha hb]
    rcases ho with rfl | rfl | rfl | rfl
    · exact ⟨a + b, rfl⟩
    · exact ⟨a - b, rfl⟩
    · exact ⟨a * b, rfl⟩
    · obtain ⟨a2, b2, ha2, hb2, hne, -⟩ := hdiv rfl
      rw [hb] at hb2
      cases hb2
      exact ⟨a.tdiv b, by simp [applyOperation, cdiv, hne]⟩

theorem exists_index_of_perm {x : Int} {rest numbers : List Int}
    (h : (x :: rest).Perm numbers) :
    ∃ i, numbers[i]? = some x ∧ rest.Perm (numbers.eraseIdx i) := by
  have hx : x ∈ numbers := h.subset (List.mem_cons_self _ _)
  obtain ⟨i, hi⟩ := List.mem_iff_getElem?.mp hx
  exact ⟨i, hi, (h.trans (perm_cons_eraseIdx hi).symm).cons_inv⟩

theorem exists_pair_of_perm {a b : Int} {rest numbers : List Int}
    (h : (a :: b :: rest).Perm numbers) :
    ∃ i j left right, i < j ∧ numbers[i]? = some left ∧ numbers[j]? = some right ∧
      ((a = left ∧ b = right) ∨ (a = right ∧ b = left)) ∧
      rest.Perm ((numbers.eraseIdx j).eraseIdx i) := by
  obtain ⟨i, hi, h1⟩ := exists_index_of_perm h
  obtain ⟨k, hk, h2⟩ := exists_index_of_perm h1
  rw [List.getElem?_eraseIdx] at hk
  by_cases hki : k < i
  · rw [if_pos hki] at hk
    exact ⟨k, i, b, a, hki, hk, hi, Or.inr ⟨rfl, rfl⟩, h2⟩
  · rw [if_neg hki] at hk
    refine ⟨i, k + 1, a, b, by omega, hi, hk, Or.inl ⟨rfl, rfl⟩, ?_⟩
    have p1 : (b :: numbers.eraseIdx (k + 1)).Perm numbers := perm_cons_eraseIdx hk
    have p2 : (a :: (numbers.eraseIdx (k + 1)).eraseIdx i).Perm (numbers.eraseIdx (k + 1)) :=
      perm_cons_eraseIdx (getElem?_eraseIdx_lt (by omega) hi)
    have p3 : (b :: a :: (numbers.eraseIdx (k + 1)).eraseIdx i).Perm numbers :=
      (p2.cons b).trans p1
    have p4 : (b :: a :: rest).Perm numbers := (List.Perm.swap _ _ _).trans h
    exact ((p4.trans p3.symm).cons_inv).cons_inv

theorem NoCompletion.not_root {rec : List Int → Int → Result} {cv : Int}
    {others : List Int} {target : Int} (hnc : NoCompletion rec cv others target) {w : Int}
    (hw : ∀ s, rec others s = .ok none → w ≠ s) {operation : Char}
    (hop : operation = '+' ∨ operation = '-' ∨ operation = '*' ∨ operation = '/') :
    (applyOperation operation cv w = .ok target →
      (operation = '/' → w ≠ 0 ∧ cv.tmod w = 0) → False) ∧
    (applyOperation operation w cv = .ok target →
      (operation = '/' → cv ≠ 0 ∧ w.tmod cv = 0) → False) := by
  obtain ⟨h1, h2, h3, h4, h5⟩ := hnc
  have hmul : cv * w = target → False := by
    intro h
    by_cases ht : target = 0
    · obtain ⟨hv, h0⟩ := h4 ht
      rw [ht] at h
      rcases mul_eq_zero.mp h with hc | hc
      · exact hv hc
      · exact hw 0 h0 hc
    · have hv : cv ≠ 0 := by
        rintro rfl
        rw [zero_mul] at h
        exact ht h.symm
      have hm : target.tmod cv = 0 := Int.tmod_eq_zero_of_dvd ⟨w, h.symm⟩
      refine hw _ ((h5 ht hv).1 hm) ?_
      rw [← h, Int.mul_tdiv_cancel_left _ hv]
  rcases hop with rfl | rfl | rfl | rfl
  · constructor
    · intro h _
      simp only [applyOperation, if_true, Except.ok.injEq] at h
      exact hw _ h1 (by omega)
    · intro h _
      simp only [applyOperation, if_true, Except.ok.injEq] at h
      exact hw _ h1 (by omega)
  · constructor
    · intro h _
      simp only [applyOperation, Char.reduceEq, if_true, if_false, Except.ok.injEq] at h
      exact hw _ h2 (by omega)
    · intro h _
      simp only [applyOperation, Char.reduceEq, if_true, if_false, Except.ok.injEq] at h
      exact hw _ h3 (by omega)
  · constructor
    · intro h _
      simp only [applyOperation, Char.reduceEq, if_true, if_false, Except.ok.injEq] at h
      exact hmul h
    · intro h _
      simp only [applyOperation, Char.reduceEq, if_true, if_false, Except.ok.injEq] at h
      exact hmul (by rw [mul_comm]; exact h)
  · constructor
    · intro h hex
      obtain ⟨hw0, hm⟩ := hex rfl
      simp only [applyOperation, Char.reduceEq, if_true, if_false, cdiv, hw0,
        Except.ok.injEq] at h
      have hmul2 : w * target = cv := by
        rw [← h]; exact Int.mul_tdiv_cancel_of_tmod_eq_zero hm
      by_cases ht : target = 0
      · rw [ht, mul_zero] at hmul2
        exact (h4 ht).1 hmul2.symm
      · have hv : cv ≠ 0 := by
          rw [← hmul2]; exact mul_ne_zero hw0 ht
        have hm2 : cv.tmod target = 0 :=
          Int.tmod_eq_zero_of_dvd ⟨w, by rw [mul_comm]; exact hmul2.symm⟩
        refine hw _ ((h5 ht hv).2.1 hm2) ?_
        rw [← hmul2, Int.mul_tdiv_cancel _ ht]
    · intro h hex
      obtain ⟨hv, hm⟩ := hex rfl
      simp only [applyOperation, Char.reduceEq, if_true, if_false, cdiv, hv,
        Except.ok.injEq] at h
      have hmul2 : cv * target = w := by
        rw [← h]; exact Int.mul_tdiv_cancel_of_tmod_eq_zero hm
      by_cases ht : target = 0
      · rw [ht, mul_zero] at hmul2
        exact hw 0 (h4 ht).2 hmul2.symm
      · exact hw _ (h5 ht hv).2.2 hmul2.symm

/-- When the search on `numbers` finds nothing, then around a side `c` of one
leaf (or of two leaves, for four numbers or more) that splits `numbers` with a
tree `r`, the search of `find_binary_operation` found nothing either, on a
remainder whose unreachable targets include the value of `r`. -/
theorem side_noCompletion {numbers : List Int} {target : Int}
    (ih : ∀ others s, others.length < numbers.length → challenge others s = .ok none →
      ∀ r, ¬Solution others s r)
    (hnone : challenge numbers target = .ok none) {c r : Expression} {cv w : Int}
    (hcn : c.hasNothing = false) (hco : c.OperatorsValid) (hcd : c.DivisionsExact)
    (hrn : r.hasNothing = false) (hro : r.OperatorsValid) (hrd : r.DivisionsExact)
    (hperm : (c.literals ++ r.literals).Perm numbers)
    (hsize : c.literals.length = 1 ∨ (c.literals.length = 2 ∧ 4 ≤ numbers.length))
    (hcv : c.evaluate = .ok cv) (hw : r.evaluate = .ok w) :
    ∃ others, NoCompletion challenge cv others target ∧
      ∀ s, challenge others s = .ok none → w ≠ s := by
  have hrpos := literals_pos hrn
  have hlen : c.literals.length + r.literals.length = numbers.length := by
    rw [← List.length_append]; exact hperm.length_eq
  rw [challenge_eq] at hnone
  obtain ⟨hs, hp⟩ := challenge_with_eq_none (by omega) hnone
  have finish : ∀ others : List Int, others.length < numbers.length →
      r.literals.Perm others → ∀ s, challenge others s = .ok none → w ≠ s := by
    intro others hlt hro2 s hs2 hws
    exact ih others s hlt hs2 r
      ⟨hrn, hro, hrd, Multiset.coe_eq_coe.mpr hro2, by rw [hw, hws]⟩
  rcases hsize with h1 | ⟨h2, h4⟩
  · obtain ⟨x, rfl⟩ := eq_int_of_one_leaf hcn h1
    obtain ⟨i, hi, hrest⟩ := exists_index_of_perm hperm
    simp only [Expression.evaluate, Except.ok.injEq] at hcv
    subst hcv
    exact ⟨numbers.eraseIdx i,
      find_binary_operation_with_eq_none (rfl : (Expression.int x).evaluate = .ok x) (hs i x hi),
      finish _ (Candidate.single i x hi).length_lt hrest⟩
  · obtain ⟨a, operation, b, rfl⟩ := eq_pair_of_two_leaves hcn h2
    obtain ⟨i, j, left, right, hij, hi, hj, hab, hrest⟩ := exists_pair_of_perm hperm
    have hop : operation = '+' ∨ operation = '-' ∨ operation = '*' ∨
        (operation = '/' ∧ b ≠ 0 ∧ a.tmod b = 0) := by
      rcases hco.1 with h | h | h | h
      · exact Or.inl h
      · exact Or.inr (Or.inl h)
      · exact Or.inr (Or.inr (Or.inl h))
      · obtain ⟨a2, b2, ha2, hb2, hne, hm⟩ := hcd.2.2 h
        simp only [Expression.evaluate, Except.ok.injEq] at ha2 hb2
        subst ha2 hb2
        exact Or.inr (Or.inr (Or.inr ⟨h, hne, hm⟩))
    obtain ⟨candidate, hce, hf⟩ :=
      pairBody_eq_none hi hj hab hop (hp h4 i j hij (lt_length_of_getElem? hj))
    exact ⟨_, find_binary_operation_with_eq_none (hce.trans hcv) hf,
      finish _ (Candidate.pair i j left right hij hi hj h4 a b operation hab hop).length_lt
        hrest⟩

/-- Completeness for at most five numbers: when `challenge` reports no
solution, no tree solves the game. -/
theorem challenge_complete_of_length_le_five :
    ∀ (n : Nat) (numbers : List Int), numbers.length = n → n ≤ 5 → ∀ target,
      challenge numbers target = .ok none → ∀ e, ¬Solution numbers target e := by
  intro n
  induction n using Nat.strong_induction_on with
  | _ n ih =>
    intro numbers hn h5 target hnone e ⟨hen, heo, hed, hlit, hev⟩
    have hperm : e.literals.Perm numbers := Multiset.coe_eq_coe.mp hlit
    have ih2 : ∀ others s, others.length < numbers.length → challenge others s = .ok none →
        ∀ r, ¬Solution others s r :=
      fun others s hlt => ih others.length (hn ▸ hlt) others rfl (by omega) s
    cases e with
    | nothing => cases hen
    | int x =>
      simp only [Expression.evaluate, Except.ok.injEq] at hev
      have hnum : numbers = [x] := (List.perm_singleton.mp hperm.symm)
      rw [hnum, challenge_singleton, if_pos hev] at hnone
      cases hnone
    | binop left operation right =>
      simp only [Expression.hasNothing, Bool.or_eq_false_iff] at hen
      obtain ⟨ho, hlo, hro⟩ := heo
      obtain ⟨hld, hrd, hdiv⟩ := hed
      obtain ⟨a, ha⟩ := evaluate_ok_of_valid hlo hld
      obtain ⟨b, hb⟩ := evaluate_ok_of_valid hro hrd
      rw [evaluate_binop _ ha hb] at hev
      have hex : operation = '/' → b ≠ 0 ∧ a.tmod b = 0 := by
        intro h
        obtain ⟨a2, b2, ha2, hb2, hne, hm⟩ := hdiv h
        rw [ha] at ha2
        rw [hb] at hb2
        cases ha2
        cases hb2
        exact ⟨hne, hm⟩
      have hlpos := literals_pos hen.1
      have hrpos := literals_pos hen.2
      have hlen : left.literals.length + right.literals.length = numbers.length := by
        rw [← List.length_append]; exact hperm.length_eq
      by_cases hleft : left.literals.length = 1 ∨
          (left.literals.length = 2 ∧ 4 ≤ numbers.length)
      · obtain ⟨others, hnc, hw⟩ := side_noCompletion ih2 hnone hen.1 hlo hld hen.2 hro hrd
          hperm hleft ha hb
        exact (hnc.not_root hw ho).1 hev hex
      · have hright : right.literals.length = 1 ∨
            (right.literals.length = 2 ∧ 4 ≤ numbers.length) := by omega
        obtain ⟨others, hnc, hw⟩ := side_noCompletion ih2 hnone hen.2 hro hrd hen.1 hlo hld
          (List.perm_append_comm.trans hperm) hright hb ha
        exact (hnc.not_root hw ho).2 hev hex

/-! ## The search does not fault -/

theorem attempt_ok {r rest : Result} (wrap : Expression → Expression)
    (hr : ∃ o, r = .ok o) (hrest : ∃ o, rest = .ok o) :
    ∃ o, attempt r wrap rest = .ok o := by
  obtain ⟨o, rfl⟩ := hr
  cases o with
  | none => exact hrest
  | some x => exact ⟨_, rfl⟩

theorem firstSuccess_ok {α : Type} {body : α → Result} {xs : List α} {rest : Result}
    (hb : ∀ x ∈ xs, ∃ o, body x = .ok o) (hrest : ∃ o, rest = .ok o) :
    ∃ o, firstSuccess body xs rest = .ok o := by
  induction xs with
  | nil => exact hrest
  | cons x xs ih =>
    exact attempt_ok _ (hb x (List.mem_cons_self _ _))
      (ih (fun y hy => hb y (List.mem_cons_of_mem _ hy)))

theorem find_binary_operation_with_ok {rec : List Int → Int → Result}
    {candidate : Expression} {others : List Int} {cv : Int} (target : Int)
    (hcv : candidate.evaluate = .ok cv) (hrec : ∀ t, ∃ o, rec others t = .ok o) :
    ∃ o, find_binary_operation_with rec candidate others target = .ok o := by
  unfold find_binary_operation_with
  rw [hcv]
  refine attempt_ok _ (hrec _) (attempt_ok _ (hrec _) (attempt_ok _ (hrec _) ?_))
  by_cases ht : target = 0
  · by_cases hv : cv = 0
    · simp [ht, hv]
    · simp only [ht, hv, if_true, if_false]
      exact attempt_ok _ (hrec _) ⟨_, rfl⟩
  · by_cases hv : cv = 0
    · simp [ht, hv]
    · simp only [ht, hv, if_false, ne_eq, not_false_eq_true, if_true, cmod_of_ne, cdiv_of_ne]
      have h3 : ∃ o, attempt (rec others (cv * target))
          (fun expr => Expression.binop expr '/' candidate) (.ok none) = .ok o :=
        attempt_ok _ (hrec _) ⟨_, rfl⟩
      have h2 : ∃ o, (if cv.tmod target = 0 then
          attempt (rec others (cv.tdiv target))
            (fun expr => Expression.binop candidate '/' expr)
            (attempt (rec others (cv * target))
              (fun expr => Expression.binop expr '/' candidate) (.ok none))
          else attempt (rec others (cv * target))
            (fun expr => Expression.binop expr '/' candidate) (.ok none)) = .ok o := by
        split
        · exact attempt_ok _ (hrec _) h3
        · exact h3
      split
      · exact attempt_ok _ (hrec _) h2
      · exact h2

theorem pairBody_ok {rec : List Int → Int → Result} {numbers : List Int} {i j : Nat}
    (target : Int) (hij : i < j) (hj : j < numbers.length)
    (hrec : ∀ t, ∃ o, rec ((numbers.eraseIdx j).eraseIdx i) t = .ok o) :
    ∃ o, pairBody rec numbers target i j = .ok o := by
  unfold pairBody
  obtain ⟨left, hl⟩ : ∃ left, numbers[i]? = some left :=
    ⟨numbers[i], List.getElem?_eq_getElem (by omega)⟩
  obtain ⟨right, hr⟩ : ∃ right, numbers[j]? = some right :=
    ⟨numbers[j], List.getElem?_eq_getElem hj⟩
  rw [index_eq_ok.mpr hl, index_eq_ok.mpr hr]
  have hf : ∀ (a b : Int) (operation : Char),
      (operation = '+' ∨ operation = '-' ∨ operation = '*' ∨ (operation = '/' ∧ b ≠ 0)) →
      ∃ o, find_binary_operation_with rec (.binop (.int a) operation (.int b))
        ((numbers.eraseIdx j).eraseIdx i) target = .ok o := by
    intro a b operation hop
    have hcv : ∃ cv, (Expression.binop (.int a) operation (.int b)).evaluate = .ok cv := by
      rcases hop with rfl | rfl | rfl | ⟨rfl, hb⟩
      · exact ⟨a + b, rfl⟩
      · exact ⟨a - b, rfl⟩
      · exact ⟨a * b, rfl⟩
      · exact ⟨a.tdiv b, by simp [Expression.evaluate, applyOperation, cdiv, hb]⟩
    obtain ⟨cv, hcv⟩ := hcv
    exact find_binary_operation_with_ok target hcv hrec
  have hsecond : ∃ o, (if left ≠ 0 then
      match cmod right left with
      | .error f => .error f
      | .ok m =>
        if m = 0 then
          attempt (find_binary_operation_with rec (.binop (.int right) '/' (.int left))
            ((numbers.eraseIdx j).eraseIdx i) target) id (.ok none)
        else .ok none
      else .ok none : Result) = .ok o := by
    by_cases hl0 : left = 0
    · simp [hl0]
    · simp only [ne_eq, hl0, not_false_eq_true, if_true, cmod_of_ne]
      split
      · exact attempt_ok _ (hf right left '/' (Or.inr (Or.inr (Or.inr ⟨rfl, hl0⟩))))
          ⟨_, rfl⟩
      · exact ⟨_, rfl⟩
  refine attempt_ok _ (hf _ _ _ (Or.inl rfl)) (attempt_ok _ (hf _ _ _ (Or.inr (Or.inl rfl)))
    (attempt_ok _ (hf _ _ _ (Or.inr (Or.inl rfl)))
      (attempt_ok _ (hf _ _ _ (Or.inr (Or.inr (Or.inl rfl)))) ?_)))
  by_cases hr0 : right = 0
  · simp only [ne_eq, hr0, not_true_eq_false, if_false]
    rw [hr0] at hsecond
    exact hsecond
  · simp only [ne_eq, hr0, not_false_eq_true, if_true, cmod_of_ne]
    split
    · exact attempt_ok _ (hf left right '/' (Or.inr (Or.inr (Or.inr ⟨rfl, hr0⟩)))) hsecond
    · exact hsecond

/-- The search returns: with one unit of fuel more than the list has
elements, `challenge` ends with a tree or with "no solution", never with a
fault (no division by zero, no read outside the list, no lack of fuel). -/
theorem challenge_ok : ∀ (n : Nat) (numbers : List Int), numbers.length = n →
    ∀ target, ∃ o, challenge numbers target = .ok o := by
  intro n
  induction n using Nat.strong_induction_on with
  | _ n ih =>
    intro numbers hn target
    have hrec : ∀ others : List Int, others.length < numbers.length →
        ∀ t, ∃ o, challenge others t = .ok o :=
      fun others hlt t => ih others.length (hn ▸ hlt) others rfl t
    rw [challenge_eq]
    unfold challenge_with
    split
    · split
      · exact ⟨_, rfl⟩
      · exact ⟨_, rfl⟩
    · refine firstSuccess_ok ?_ ?_
      · intro i hi
        have hi2 := List.mem_range.mp hi
        have hget : numbers[i]? = some numbers[i] := List.getElem?_eq_getElem hi2
        unfold singleBody
        rw [index_eq_ok.mpr hget]
        exact find_binary_operation_with_ok target
          (rfl : (Expression.int numbers[i]).evaluate = .ok numbers[i])
          (hrec _ (Candidate.single i _ hget).length_lt)
      · split
        · refine firstSuccess_ok (fun i hi => firstSuccess_ok (fun j hj => ?_) ⟨_, rfl⟩)
            ⟨_, rfl⟩
          have hj2 := List.mem_range'_1.mp hj
          have hjlt : j < numbers.length := by omega
          refine pairBody_ok target (by omega) hjlt (hrec _ ?_)
          have h2 := List.length_eraseIdx_le (numbers.eraseIdx j) i
          rw [List.length_eraseIdx_of_lt hjlt] at h2
          omega
        · exact ⟨_, rfl⟩

/-! ## Targets out of reach of the search on six ones -/

theorem Completes.target_abs_le {rec : List Int → Int → Result} {candidate : Expression}
    {cv : Int} {others : List Int} {target : Int} {e : Expression} {B c : Int}
    (ih : ∀ t x, rec others t = .ok (some x) → |t| ≤ B) (hB : 0 ≤ B) (hc : |cv| ≤ c)
    (h : Completes rec candidate cv others target e) :
    |target| ≤ B + c ∨ |target| ≤ c * B := by
  have hc2 := abs_le.mp hc
  have hc0 : 0 ≤ c := le_trans (abs_nonneg cv) hc
  rcases h with ⟨x, hx, rfl⟩ | ⟨x, hx, rfl⟩ | ⟨x, hx, rfl⟩ | ⟨ht, hv, rfl⟩ |
    ⟨ht, hv, x, hx, rfl⟩ | ⟨ht, hv, hm, x, hx, rfl⟩ | ⟨ht, hv, hm, x, hx, rfl⟩ |
    ⟨ht, hv, x, hx, rfl⟩
  · have := abs_le.mp (ih _ _ hx)
    left; rw [abs_le]; constructor <;> omega
  · have := abs_le.mp (ih _ _ hx)
    left; rw [abs_le]; constructor <;> omega
  · have := abs_le.mp (ih _ _ hx)
    left; rw [abs_le]; constructor <;> omega
  · left; rw [ht, abs_zero]; omega
  · left; rw [ht, abs_zero]; omega
  · right
    have hq := ih _ _ hx
    have hmul : cv * target.tdiv cv = target := Int.mul_tdiv_cancel_of_tmod_eq_zero hm
    rw [← hmul, abs_mul]
    exact mul_le_mul hc hq (abs_nonneg _) hc0
  · left
    have hdvd : target ∣ cv := Int.dvd_of_tmod_eq_zero hm
    have := Int.le_of_dvd (abs_pos.mpr hv) ((abs_dvd_abs _ _).mpr hdvd)
    omega
  · left
    have hq := ih _ _ hx
    rw [abs_mul] at hq
    have h1 : 1 ≤ |cv| := Int.one_le_abs hv
    have : |target| ≤ |cv| * |target| := le_mul_of_one_le_left (abs_nonneg _) h1
    omega

theorem challenge_ones_bound :
    ∀ numbers target e, challenge numbers target = .ok (some e) →
      numbers.length ≤ 6 → (∀ x ∈ numbers, x = 1) → |target| ≤ onesBound numbers.length := by
  refine challenge_induction
    (P := fun numbers target _ => numbers.length ≤ 6 → (∀ x ∈ numbers, x = 1) →
      |target| ≤ onesBound numbers.length) ?_ ?_
  · intro t _ h1
    rw [h1 t (List.mem_singleton_self t)]
    decide
  · intro numbers target candidate others cv e hc hcv ih hcomp h6 hones
    have hlen : candidate.literals.length + others.length = numbers.length := by
      rw [← List.length_append]; exact hc.perm.length_eq
    have hsub := hc.subset
    have ih2 : ∀ t x, challenge others t = .ok (some x) → |t| ≤ onesBound others.length :=
      fun t x hx => ih t x hx (by omega) (fun y hy => hones y (hsub.2 y hy))
    have hB : 0 ≤ onesBound others.length := by
      unfold onesBound; split <;> decide
    cases hc with
    | single i operand hi =>
      simp only [Expression.evaluate, Except.ok.injEq] at hcv
      have h1 : cv = 1 := by
        rw [← hcv]
        exact hones _ (hsub.1 _ (by simp [Expression.literals]))
      have hbound := hcomp.target_abs_le ih2 hB (c := 1) (by rw [h1]; decide)
      simp only [Expression.literals, List.length_singleton] at hlen
      rw [← hlen]
      generalize (numbers.eraseIdx i).length = m at hbound hlen
      have hm : m ≤ 5 := by omega
      interval_cases m <;> simp only [onesBound] at hbound ⊢ <;> omega
    | pair i j left right hij hi hj h4 a b operation hab hop =>
      have ha : a = 1 := hones _ (hsub.1 _ (by simp [Expression.literals]))
      have hb : b = 1 := hones _ (hsub.1 _ (by simp [Expression.literals]))
      subst ha hb
      have hcv2 : |cv| ≤ 2 := by
        rcases hop with rfl | rfl | rfl | ⟨rfl, -, -⟩ <;>
          simp only [Expression.evaluate, applyOperation, cdiv, Char.reduceEq, if_true,
            if_false, one_ne_zero, Except.ok.injEq] at hcv <;>
          rw [← hcv] <;> decide
      have hbound := hcomp.target_abs_le ih2 hB hcv2
      simp only [Expression.literals, List.singleton_append, List.length_cons,
        List.length_nil] at hlen
      rw [← hlen]
      generalize ((numbers.eraseIdx j).eraseIdx i).length = m at hbound hlen
      have hm : m ≤ 4 := by omega
      have hm2 : 2 ≤ m := by omega
      interval_cases m <;> simp only [onesBound] at hbound ⊢ <;> omega

/-! ## The lists the recursion is run on -/

theorem singleBody_congr_at {rec1 rec2 : List Int → Int → Result} {numbers : List Int}
    {i : Nat} (h : ∀ t, rec1 (numbers.eraseIdx i) t = rec2 (numbers.eraseIdx i) t)
    (target : Int) :
    singleBody rec1 numbers target i = singleBody rec2 numbers target i := by
  unfold singleBody
  cases index numbers i with
  | error f => rfl
  | ok operand => exact find_binary_operation_with_congr h _ _

theorem pairBody_congr_at {rec1 rec2 : List Int → Int → Result} {numbers : List Int}
    {i j : Nat}
    (h : ∀ t, rec1 ((numbers.eraseIdx j).eraseIdx i) t =
      rec2 ((numbers.eraseIdx j).eraseIdx i) t)
    (target : Int) :
    pairBody rec1 numbers target i j = pairBody rec2 numbers target i j := by
  unfold pairBody
  simp only [find_binary_operation_with_congr h]

theorem length_eraseIdx_eraseIdx {numbers : List Int} {i j : Nat} (hij : i < j)
    (hj : j < numbers.length) :
    ((numbers.eraseIdx j).eraseIdx i).length + 2 = numbers.length := by
  have h1 := List.length_eraseIdx_of_lt hj
  have h2 : i < (numbers.eraseIdx j).length := by omega
  rw [List.length_eraseIdx_of_lt h2, h1]
  omega

/-- The body of `challenge` runs its recursive call only on non-empty lists
that are shorter than `numbers` by one, or by two when `numbers` has at least
four elements: two functions that agree on these lists give the same result. -/
theorem challenge_with_congr_shorter {rec1 rec2 : List Int → Int → Result}
    {numbers : List Int}
    (h : ∀ others t, others ≠ [] →
      (others.length + 1 = numbers.length ∨
        (others.length + 2 = numbers.length ∧ 4 ≤ numbers.length)) →
      rec1 others t = rec2 others t)
    (target : Int) :
    challenge_with rec1 numbers target = challenge_with rec2 numbers target := by
  unfold challenge_with
  split
  · rfl
  · next hne =>
    have hlen1 : numbers.length ≠ 1 := by
      intro h1
      obtain ⟨x, hx⟩ := List.length_eq_one.mp h1
      exact hne x hx
    have hrest : (if numbers.length ≥ 4 then
          firstSuccess
            (fun i => firstSuccess (pairBody rec1 numbers target i)
              (List.range' (i + 1) (numbers.length - (i + 1))) (.ok none))
            (List.range (numbers.length - 1)) (.ok none)
        else .ok none) =
        (if numbers.length ≥ 4 then
          firstSuccess
            (fun i => firstSuccess (pairBody rec2 numbers target i)
              (List.range' (i + 1) (numbers.length - (i + 1))) (.ok none))
            (List.range (numbers.length - 1)) (.ok none)
        else .ok none) := by
      split
      · next h4 =>
        refine firstSuccess_congr (fun i hi => firstSuccess_congr (fun j hj => ?_))
        have hj2 := List.mem_range'_1.mp hj
        have hjlt : j < numbers.length := by omega
        have hl := length_eraseIdx_eraseIdx (show i < j by omega) hjlt
        refine pairBody_congr_at (fun t => h _ t ?_ (Or.inr ⟨hl, h4⟩)) target
        intro h0
        rw [h0] at hl
        simp at hl
        omega
      · rfl
    rw [hrest]
    refine firstSuccess_congr (fun i hi => ?_)
    have hi2 := List.mem_range.mp hi
    have hl := List.length_eraseIdx_of_lt hi2
    refine singleBody_congr_at (fun t => h _ t ?_ (Or.inl (by omega))) target
    intro h0
    rw [h0] at hl
    simp at hl
    omega

/-- A depth of recursion equal to the number of inputs is enough. -/
theorem challengeFuel_of_length_le (fuel : Nat) :
    ∀ (numbers : List Int) (target : Int), 1 ≤ fuel → numbers.length ≤ fuel →
      challengeFuel fuel numbers target = challenge numbers target := by
  induction fuel with
  | zero => intro _ _ h; omega
  | succ k ih =>
    intro numbers target _ hlen
    rw [challengeFuel, challenge_eq]
    refine challenge_with_congr_shorter (fun others t hne hsh => ?_) target
    have hpos : 0 < others.length := List.length_pos.mpr hne
    exact ih others t (by omega) (by omega)

/-! ## A genuine solution behind every reported success -/

theorem sumTree_solution : ∀ (others : List Int), others ≠ [] →
    ∃ w, Solution others w (sumTree others) := by
  intro others
  induction others with
  | nil => intro h; exact absurd rfl h
  | cons x rest ih =>
    intro _
    cases rest with
    | nil =>
      exact ⟨x, rfl, trivial, trivial, rfl, rfl⟩
    | cons y rest =>
      obtain ⟨w, hn, ho, hd, hl, hv⟩ := ih (by simp)
      refine ⟨x + w, ?_, ⟨Or.inl rfl, trivial, ho⟩, ⟨trivial, hd, fun h => absurd h (by decide)⟩,
        ?_, ?_⟩
      · simp [sumTree, Expression.hasNothing, hn]
      · have := Multiset.coe_eq_coe.mp hl
        exact Multiset.coe_eq_coe.mpr (this.cons x)
      · show (Expression.binop (.int x) '+' (sumTree (y :: rest))).evaluate = _
        rw [evaluate_binop _ (rfl : (Expression.int x).evaluate = .ok x) hv]
        rfl

theorem pointRec_eq_some {t0 t : Int} {x y : Expression} {others : List Int}
    (h : pointRec t0 x others t = .ok (some y)) : t = t0 ∧ y = x := by
  unfold pointRec at h
  split at h
  · next ht =>
    simp only [Except.ok.injEq, Option.some.injEq] at h
    exact ⟨ht, h.symm⟩
  · simp at h

theorem Completes.exists_sub {rec : List Int → Int → Result} {candidate : Expression}
    {cv : Int} {others : List Int} {target : Int} {e : Expression}
    (h : Completes rec candidate cv others target e) :
    (target = 0 ∧ cv = 0 ∧ e = .binop candidate '*' .nothing) ∨
    ∃ t0 x operation, rec others t0 = .ok (some x) ∧
      ((e = .binop candidate operation x ∧
        ∀ y, Completes (pointRec t0 y) candidate cv others target
          (.binop candidate operation y)) ∨
      (e = .binop x operation candidate ∧
        ∀ y, Completes (pointRec t0 y) candidate cv others target
          (.binop y operation candidate))) := by
  have hp : ∀ (t0 : Int) (y : Expression), pointRec t0 y others t0 = .ok (some y) :=
    fun t0 y => by simp [pointRec]
  rcases h with ⟨x, hx, rfl⟩ | ⟨x, hx, rfl⟩ | ⟨x, hx, rfl⟩ | ⟨ht, hv, rfl⟩ |
    ⟨ht, hv, x, hx, rfl⟩ | ⟨ht, hv, hm, x, hx, rfl⟩ | ⟨ht, hv, hm, x, hx, rfl⟩ |
    ⟨ht, hv, x, hx, rfl⟩
  · exact Or.inr ⟨_, x, '+', hx, Or.inl ⟨rfl, fun y => Or.inl ⟨y, hp _ y, rfl⟩⟩⟩
  · exact Or.inr ⟨_, x, '-', hx, Or.inl ⟨rfl, fun y => Or.inr (Or.inl ⟨y, hp _ y, rfl⟩)⟩⟩
  · exact Or.inr ⟨_, x, '-', hx,
      Or.inr ⟨rfl, fun y => Or.inr (Or.inr (Or.inl ⟨y, hp _ y, rfl⟩))⟩⟩
  · exact Or.inl ⟨ht, hv, rfl⟩
  · exact Or.inr ⟨_, x, '*', hx, Or.inl ⟨rfl, fun y =>
      Or.inr (Or.inr (Or.inr (Or.inr (Or.inl ⟨ht, hv, y, hp _ y, rfl⟩))))⟩⟩
  · exact Or.inr ⟨_, x, '*', hx, Or.inl ⟨rfl, fun y =>
      Or.inr (Or.inr (Or.inr (Or.inr (Or.inr (Or.inl ⟨ht, hv, hm, y, hp _ y, rfl⟩)))))⟩⟩
  · exact Or.inr ⟨_, x, '/', hx, Or.inl ⟨rfl, fun y =>
      Or.inr (Or.inr (Or.inr (Or.inr (Or.inr (Or.inr (Or.inl
        ⟨ht, hv, hm, y, hp _ y, rfl⟩))))))⟩⟩
  · exact Or.inr ⟨_, x, '/', hx, Or.inr ⟨rfl, fun y =>
      Or.inr (Or.inr (Or.inr (Or.inr (Or.inr (Or.inr (Or.inr
        ⟨ht, hv, y, hp _ y, rfl⟩))))))⟩⟩

/-- A tree built by `find_binary_operation` around a candidate without Empty
node, from a sub-search that returns solutions of the remainder, is a
solution, as soon as it has no Empty node itself. -/
theorem Completes.solution {rec : List Int → Int → Result} {candidate : Expression}
    {cv : Int} {others numbers : List Int} {target : Int} {e : Expression}
    (hcv : candidate.evaluate = .ok cv) (ho : candidate.OperatorsValid)
    (hd : candidate.DivisionsExact) (hperm : (candidate.literals ++ others).Perm numbers)
    (ih : ∀ t x, rec others t = .ok (some x) → Solution others t x)
    (h : Completes rec candidate cv others target e) (he : e.hasNothing = false) :
    Solution numbers target e :=
  ⟨he, h.operatorsValid_result ho (fun t x hx => (ih t x hx).2.1),
    h.divisionsExact_result hcv hd (fun t x hx => ⟨(ih t x hx).2.2.2.2, (ih t x hx).2.2.1⟩),
    Multiset.coe_eq_coe.mpr
      (h.perm_result hperm (fun t x hx _ => Multiset.coe_eq_coe.mp (ih t x hx).2.2.2.1) he),
    h.evaluate hcv (fun t x hx => (ih t x hx).2.2.2.2)⟩

theorem Candidate.others_ne_nil {numbers : List Int} {candidate : Expression}
    {others : List Int} (h : Candidate numbers candidate others)
    (hlen : numbers.length ≠ 1) : others ≠ [] := by
  have hl : candidate.literals.length + others.length = numbers.length := by
    rw [← List.length_append]; exact h.perm.length_eq
  intro h0
  rw [h0] at hl
  cases h with
  | single i operand hi =>
    simp [Expression.literals] at hl
    omega
  | pair i j left right hij hi hj h4 a b operation hab hop =>
    simp [Expression.literals] at hl
    omega

/-- The trees `challenge` returns, each with the fact that it was returned:
the induction of `challenge_induction`, for properties that need to know the
list is not the one-element list of the base case. -/
theorem challenge_induction_returned {P : List Int → Int → Expression → Prop}
    (base : ∀ t, P [t] t (.int t))
    (step : ∀ numbers target candidate others cv e, Candidate numbers candidate others →
      others ≠ [] → candidate.evaluate = .ok cv →
      (∀ t x, challenge others t = .ok (some x) → P others t x) →
      Completes challenge candidate cv others target e → P numbers target e) :
    ∀ numbers target e, challenge numbers target = .ok (some e) → P numbers target e := by
  intro numbers target e h
  refine challenge_induction
    (P := fun numbers target e => challenge numbers target = .ok (some e) → P numbers target e)
    (fun t _ => base t) ?_ numbers target e h h
  intro numbers target candidate others cv e hc hcv ih hcomp hret
  by_cases hlen : numbers.length = 1
  · obtain ⟨y, rfl⟩ := List.length_eq_one.mp hlen
    rw [challenge_singleton] at hret
    split at hret
    · next hy =>
      simp only [Except.ok.injEq, Option.some.injEq] at hret
      rw [← hret, ← hy]
      exact base y
    · simp at hret
  · exact step numbers target candidate others cv e hc (hc.others_ne_nil hlen) hcv
      (fun t x hx => ih t x hx hx) hcomp

theorem challenge_solution_exists :
    ∀ numbers target e, challenge numbers target = .ok (some e) →
      ∃ s, Solution numbers target s := by
  refine challenge_induction_returned
    (P := fun numbers target _ => ∃ s, Solution numbers target s)
    (fun t => ⟨.int t, rfl, trivial, trivial, rfl, rfl⟩) ?_
  intro numbers target candidate others cv e hc hne hcv ih hcomp
  have hn := hc.hasNothing
  rcases hcomp.exists_sub with ⟨ht, hv, -⟩ | ⟨t0, x, operation, hx, h⟩
  · obtain ⟨w, hwn, hwo, hwd, hwl, hwv⟩ := sumTree_solution others hne
    refine ⟨.binop candidate '*' (sumTree others), ?_,
      ⟨Or.inr (Or.inr (Or.inl rfl)), hc.operatorsValid, hwo⟩,
      ⟨hc.divisionsExact, hwd, fun h => absurd h (by decide)⟩, ?_, ?_⟩
    · simp [Expression.hasNothing, hn, hwn]
    · refine Multiset.coe_eq_coe.mpr (List.Perm.trans ?_ hc.perm)
      exact List.Perm.append_left _ (Multiset.coe_eq_coe.mp hwl)
    · rw [evaluate_binop _ hcv hwv]
      simp [applyOperation, hv, ht]
  · obtain ⟨y, hy⟩ := ih t0 x hx
    have ihp : ∀ t z, pointRec t0 y others t = .ok (some z) → Solution others t z := by
      intro t z hz
      obtain ⟨rfl, rfl⟩ := pointRec_eq_some hz
      exact hy
    rcases h with ⟨-, h⟩ | ⟨-, h⟩
    · exact ⟨_, (h y).solution hcv hc.operatorsValid hc.divisionsExact hc.perm ihp
        (by simp [Expression.hasNothing, hn, hy.1])⟩
    · exact ⟨_, (h y).solution hcv hc.operatorsValid hc.divisionsExact hc.perm ihp
        (by simp [Expression.hasNothing, hn, hy.1])⟩

/-! ## Where Empty nodes sit, and what they stand for -/

theorem Completes.subperm_result {rec : List Int → Int → Result} {candidate : Expression}
    {cv : Int} {others numbers : List Int} {target : Int} {e : Expression}
    (hperm : (candidate.literals ++ others).Perm numbers)
    (hn : candidate.hasNothing = false) (hne : others ≠ [])
    (ih : ∀ t x, rec others t = .ok (some x) → x.literals.Subperm others ∧
      (x.hasNothing = true → x.literals.length < others.length))
    (h : Completes rec candidate cv others target e) :
    e.literals.Subperm numbers ∧ (e.hasNothing = true → e.literals.length < numbers.length) := by
  have hlen : candidate.literals.length + others.length = numbers.length := by
    rw [← List.length_append]; exact hperm.length_eq
  have hpos : 0 < others.length := List.length_pos.mpr hne
  have key : ∀ x : Expression, (x.literals.Subperm others ∧
      (x.hasNothing = true → x.literals.length < others.length)) →
      ((candidate.literals ++ x.literals).Subperm numbers ∧
        (x.literals ++ candidate.literals).Subperm numbers) ∧
      ((candidate.hasNothing || x.hasNothing) = true →
        candidate.literals.length + x.literals.length < numbers.length) := by
    intro x ⟨hs, hl⟩
    have h1 : (candidate.literals ++ x.literals).Subperm numbers :=
      ((List.subperm_append_left _).mpr hs).trans hperm.subperm
    refine ⟨⟨h1, List.perm_append_comm.subperm.trans h1⟩, fun hh => ?_⟩
    rw [hn, Bool.false_or] at hh
    have := hl hh
    omega
  rcases h with ⟨x, hx, rfl⟩ | ⟨x, hx, rfl⟩ | ⟨x, hx, rfl⟩ | ⟨ht, hv, rfl⟩ |
    ⟨ht, hv, x, hx, rfl⟩ | ⟨ht, hv, hm, x, hx, rfl⟩ | ⟨ht, hv, hm, x, hx, rfl⟩ |
    ⟨ht, hv, x, hx, rfl⟩
  · obtain ⟨⟨h1, -⟩, h2⟩ := key x (ih _ _ hx)
    exact ⟨h1, fun hh => by simpa [Expression.literals] using h2 hh⟩
  · obtain ⟨⟨h1, -⟩, h2⟩ := key x (ih _ _ hx)
    exact ⟨h1, fun hh => by simpa [Expression.literals] using h2 hh⟩
  · obtain ⟨⟨-, h1⟩, h2⟩ := key x (ih _ _ hx)
    refine ⟨h1, fun hh => ?_⟩
    have := h2 (by simpa [Expression.hasNothing, Bool.or_comm] using hh)
    simp only [Expression.literals, List.length_append]
    omega
  · refine ⟨?_, fun _ => ?_⟩
    · simp only [Expression.literals, List.append_nil]
      exact (List.sublist_append_left _ _).subperm.trans hperm.subperm
    · simp only [Expression.literals, List.append_nil]
      omega
  · obtain ⟨⟨h1, -⟩, h2⟩ := key x (ih _ _ hx)
    exact ⟨h1, fun hh => by simpa [Expression.literals] using h2 hh⟩
  · obtain ⟨⟨h1, -⟩, h2⟩ := key x (ih _ _ hx)
    exact ⟨h1, fun hh => by simpa [Expression.literals] using h2 hh⟩
  · obtain ⟨⟨h1, -⟩, h2⟩ := key x (ih _ _ hx)
    exact ⟨h1, fun hh => by simpa [Expression.literals] using h2 hh⟩
  · obtain ⟨⟨-, h1⟩, h2⟩ := key x (ih _ _ hx)
    refine ⟨h1, fun hh => ?_⟩
    have := h2 (by simpa [Expression.hasNothing, Bool.or_comm] using hh)
    simp only [Expression.literals, List.length_append]
    omega

theorem challenge_literals_subperm :
    ∀ numbers target e, challenge numbers target = .ok (some e) →
      e.literals.Subperm numbers ∧
        (e.hasNothing = true → e.literals.length < numbers.length) :=
  challenge_induction_returned
    (P := fun numbers _ e => e.literals.Subperm numbers ∧
      (e.hasNothing = true → e.literals.length < numbers.length))
    (fun _ => ⟨List.Subperm.refl _, fun h => by simp [Expression.hasNothing] at h⟩)
    (fun _ _ _ _ _ _ hc hne _ ih hcomp => hcomp.subperm_result hc.perm hc.hasNothing hne ih)

/-! ## Lists without a zero -/

theorem firstSuccess_eq_some_first {α : Type} {body : α → Result} {xs : List α}
    {rest : Result} {e : Expression} (h : firstSuccess body xs rest = .ok (some e)) :
    (∃ x ∈ xs, body x = .ok (some e)) ∨
      ((∀ x ∈ xs, body x = .ok none) ∧ rest = .ok (some e)) := by
  induction xs with
  | nil => exact Or.inr ⟨fun _ hx => absurd hx (List.not_mem_nil _), h⟩
  | cons x xs ih =>
    rw [firstSuccess, attempt_eq_some] at h
    rcases h with ⟨y, hy, rfl⟩ | ⟨hnone, h⟩
    · exact Or.inl ⟨x, List.mem_cons_self _ _, hy⟩
    · rcases ih h with ⟨y, hy, hb⟩ | ⟨hall, hr⟩
      · exact Or.inl ⟨y, List.mem_cons_of_mem _ hy, hb⟩
      · refine Or.inr ⟨fun y hy => ?_, hr⟩
        rcases List.mem_cons.mp hy with rfl | hy
        · exact hnone
        · exact hall y hy

/-- How `challenge` returns a tree, with the order of the two expansions: the
tree comes from the base case, from a single operand, or from a pair after
every single operand has failed. -/
theorem challenge_eq_some_ordered {numbers : List Int} {target : Int} {e : Expression}
    (h : challenge numbers target = .ok (some e)) :
    (numbers = [target] ∧ e = .int target) ∨
    (∃ i operand, numbers[i]? = some operand ∧
      find_binary_operation_with challenge (.int operand) (numbers.eraseIdx i) target =
        .ok (some e)) ∨
    ((∀ i operand, numbers[i]? = some operand →
        find_binary_operation_with challenge (.int operand) (numbers.eraseIdx i) target =
          .ok none) ∧
      ∃ candidate others, Candidate numbers candidate others ∧
        find_binary_operation_with challenge candidate others target = .ok (some e)) := by
  rw [challenge_eq] at h
  unfold challenge_with at h
  split at h
  · next x =>
    left
    by_cases ht : target = x
    · simp only [ht, if_true, Except.ok.injEq, Option.some.injEq] at h
      exact ⟨by rw [ht], by rw [ht, h]⟩
    · simp [ht] at h
  · right
    rcases firstSuccess_eq_some_first h with ⟨i, hi, hb⟩ | ⟨hall, h⟩
    · left
      unfold singleBody at hb
      cases hx : index numbers i with
      | error f => rw [hx] at hb; cases hb
      | ok operand =>
        rw [hx] at hb
        exact ⟨i, operand, index_eq_ok.mp hx, hb⟩
    · right
      constructor
      · intro i operand hi
        have := hall i (List.mem_range.mpr (lt_length_of_getElem? hi))
        unfold singleBody at this
        rw [index_eq_ok.mpr hi] at this
        exact this
      · by_cases h4 : numbers.length ≥ 4
        · simp only [h4, if_true] at h
          rcases firstSuccess_eq_some h with ⟨i, -, hb⟩ | h
          · rcases firstSuccess_eq_some hb with ⟨j, hj, hb⟩ | h
            · have hij : i < j := by
                have := (List.mem_range'_1.mp hj).1
                omega
              exact pairBody_eq_some hij h4 hb
            · cases h
          · cases h
        · simp [h4] at h

/-- A list with two numbers that are equal or opposite reaches the target 0:
the search does not report "no solution". -/
theorem challenge_zero_of_pair (rest : List Int) :
    ∀ (numbers : List Int) (a b : Int), (a :: b :: rest).Perm numbers →
      (a = b ∨ a + b = 0) → challenge numbers 0 ≠ .ok none := by
  induction rest with
  | nil =>
    intro numbers a b hperm hab hnone
    have hlen : numbers.length = 2 := hperm.length_eq.symm
    rw [challenge_eq] at hnone
    obtain ⟨hs, -⟩ := challenge_with_eq_none (by omega) hnone
    obtain ⟨i, hi, hrest⟩ := exists_index_of_perm hperm
    have hothers : numbers.eraseIdx i = [b] := List.perm_singleton.mp hrest.symm
    have hnc := find_binary_operation_with_eq_none
      (rfl : (Expression.int a).evaluate = .ok a) (hs i a hi)
    rw [hothers] at hnc
    obtain ⟨h1, h2, -⟩ := hnc
    rw [challenge_singleton] at h1 h2
    rcases hab with hab | hab
    · rw [if_pos (by omega)] at h2
      cases h2
    · rw [if_pos (by omega)] at h1
      cases h1
  | cons c rest ih =>
    intro numbers a b hperm hab hnone
    have hlen : numbers.length = rest.length + 3 := by
      rw [← hperm.length_eq]; simp
    have hperm2 : (c :: a :: b :: rest).Perm numbers :=
      List.Perm.trans (List.Perm.trans (List.Perm.swap a c _)
        ((List.Perm.swap b c _).cons a)) hperm
    obtain ⟨k, hk, hrest⟩ := exists_index_of_perm hperm2
    rw [challenge_eq] at hnone
    obtain ⟨hs, -⟩ := challenge_with_eq_none (by omega) hnone
    have hnc := find_binary_operation_with_eq_none
      (rfl : (Expression.int c).evaluate = .ok c) (hs k c hk)
    exact ih _ a b hrest hab (hnc.2.2.2.1 rfl).2

/-- A pair candidate on two numbers other than 0 has the value 0 only when
the two numbers are equal or opposite. -/
theorem pair_value_zero {a b : Int} {operation : Char} (ha : a ≠ 0) (hb : b ≠ 0)
    (hop : operation = '+' ∨ operation = '-' ∨ operation = '*' ∨
      (operation = '/' ∧ b ≠ 0 ∧ a.tmod b = 0))
    (hv : (Expression.binop (.int a) operation (.int b)).evaluate = .ok 0) :
    a = b ∨ a + b = 0 := by
  rcases hop with rfl | rfl | rfl | ⟨rfl, -, hm⟩
  · simp only [Expression.evaluate, applyOperation, if_true, Except.ok.injEq] at hv
    exact Or.inr hv
  · simp only [Expression.evaluate, applyOperation, Char.reduceEq, if_true, if_false,
      Except.ok.injEq] at hv
    exact Or.inl (by omega)
  · simp only [Expression.evaluate, applyOperation, Char.reduceEq, if_true, if_false,
      Except.ok.injEq] at hv
    rcases mul_eq_zero.mp hv with h | h
    · exact absurd h ha
    · exact absurd h hb
  · simp only [Expression.evaluate, applyOperation, Char.reduceEq, if_true, if_false, cdiv,
      hb, Except.ok.injEq] at hv
    have := Int.mul_tdiv_cancel_of_tmod_eq_zero hm
    rw [hv, mul_zero] at this
    exact absurd this.symm ha

theorem challenge_hasNothing_of_zero_free :
    ∀ (n : Nat) (numbers : List Int), numbers.length = n → (0 : Int) ∉ numbers →
      ∀ target e, challenge numbers target = .ok (some e) → e.hasNothing = false := by
  intro n
  induction n using Nat.strong_induction_on with
  | _ n ih =>
    intro numbers hn hz target e he
    have ihsub : ∀ {candidate : Expression} {others : List Int},
        Candidate numbers candidate others →
        ∀ t x, challenge others t = .ok (some x) → x.hasNothing = false :=
      fun hc t x hx => ih _ (hn ▸ hc.length_lt) _ rfl
        (fun h0 => hz (hc.subset.2 _ h0)) t x hx
    rcases challenge_eq_some_ordered he with ⟨-, rfl⟩ | ⟨i, operand, hi, hf⟩ |
      ⟨hall, candidate, others, hc, hf⟩
    · rfl
    · have hc : Candidate numbers (.int operand) (numbers.eraseIdx i) :=
        Candidate.single i operand hi
      obtain ⟨cv, hcv, hcomp⟩ := find_binary_operation_with_eq_some hf
      simp only [Expression.evaluate, Except.ok.injEq] at hcv
      refine hcomp.hasNothing_false hc.hasNothing ?_ (ihsub hc)
      rintro ⟨-, hv⟩
      rw [hv] at hcv
      exact hz (hcv ▸ (hc.subset.1 operand (by simp [Expression.literals])))
    · obtain ⟨cv, hcv, hcomp⟩ := find_binary_operation_with_eq_some hf
      refine hcomp.hasNothing_false hc.hasNothing ?_ (ihsub hc)
      rintro ⟨ht, hv⟩
      subst ht hv
      have hperm := hc.perm
      have hsub := hc.subset
      have hlt := hc.length_lt
      cases hc with
      | single i operand hi =>
        rw [hall i operand hi] at hf
        cases hf
      | pair i j left right hij hi hj h4 a b operation hab hop =>
        have hamem : a ∈ numbers := hsub.1 a (by simp [Expression.literals])
        have hbmem : b ∈ numbers := hsub.1 b (by simp [Expression.literals])
        have ha : a ≠ 0 := fun h0 => hz (h0 ▸ hamem)
        have hb : b ≠ 0 := fun h0 => hz (h0 ▸ hbmem)
        have hzero := pair_value_zero ha hb hop hcv
        have hlen := hperm.length_eq
        simp only [Expression.literals, List.length_append, List.length_singleton] at hlen
        obtain ⟨c, rest, hoth⟩ : ∃ c rest, (numbers.eraseIdx j).eraseIdx i = c :: rest :=
          List.exists_cons_of_ne_nil (List.ne_nil_of_length_pos (by omega))
        rw [hoth] at hperm
        have hperm2 : (c :: a :: b :: rest).Perm numbers :=
          List.Perm.trans (List.Perm.trans (List.Perm.swap a c _)
            ((List.Perm.swap b c _).cons a)) hperm
        obtain ⟨k, hk, hrest⟩ := exists_index_of_perm hperm2
        have hnc := find_binary_operation_with_eq_none
          (rfl : (Expression.int c).evaluate = .ok c) (hall k c hk)
        exact challenge_zero_of_pair rest _ a b hrest hzero (hnc.2.2.2.1 rfl).2

/-! ## The search on 32-bit `int` returns or traps -/

theorem attempt_returnsOrTraps {r rest : Result} (wrap : Expression → Expression)
    (hr : ReturnsOrTraps r) (hrest : ReturnsOrTraps rest) :
    ReturnsOrTraps (attempt r wrap rest) := by
  rcases hr with rfl | ⟨o, rfl⟩
  · exact Or.inl rfl
  · cases o with
    | none => exact hrest
    | some x => exact Or.inr ⟨_, rfl⟩

theorem firstSuccess_returnsOrTraps {α : Type} {body : α → Result} {xs : List α}
    {rest : Result} (hb : ∀ x ∈ xs, ReturnsOrTraps (body x)) (hrest : ReturnsOrTraps rest) :
    ReturnsOrTraps (firstSuccess body xs rest) := by
  induction xs with
  | nil => exact hrest
  | cons x xs ih =>
    exact attempt_returnsOrTraps _ (hb x (List.mem_cons_self _ _))
      (ih (fun y hy => hb y (List.mem_cons_of_mem _ hy)))

theorem cmod32_cases (a : Int) {b : Int} (hb : b ≠ 0) :
    cmod32 a b = .error .divOverflow ∨ ∃ m, cmod32 a b = .ok m := by
  unfold cmod32
  rw [if_neg hb]
  split
  · exact Or.inl rfl
  · exact Or.inr ⟨_, rfl⟩

theorem cdiv32_cases (a : Int) {b : Int} (hb : b ≠ 0) :
    cdiv32 a b = .error .divOverflow ∨ ∃ q, cdiv32 a b = .ok q := by
  unfold cdiv32
  rw [if_neg hb]
  split
  · exact Or.inl rfl
  · exact Or.inr ⟨_, rfl⟩

theorem find_binary_operation_with32_returnsOrTraps {rec : List Int → Int → Result}
    {candidate : Expression} {others : List Int} (target : Int)
    (hc : candidate.evaluate32 = .error .divOverflow ∨ ∃ cv, candidate.evaluate32 = .ok cv)
    (hrec : ∀ t, ReturnsOrTraps (rec others t)) :
    ReturnsOrTraps (find_binary_operation_with32 rec candidate others target) := by
  unfold find_binary_operation_with32
  rcases hc with hcv | ⟨cv, hcv⟩
  · rw [hcv]
    exact Or.inl rfl
  · rw [hcv]
    simp only []
    have hnone : ReturnsOrTraps (.ok none) := Or.inr ⟨_, rfl⟩
    refine attempt_returnsOrTraps _ (hrec _) (attempt_returnsOrTraps _ (hrec _)
      (attempt_returnsOrTraps _ (hrec _) ?_))
    by_cases ht : target = 0
    · by_cases hv : cv = 0
      · simp only [ht, hv, if_true]
        exact Or.inr ⟨_, rfl⟩
      · simp only [ht, hv, if_true, if_false]
        exact attempt_returnsOrTraps _ (hrec _) hnone
    · by_cases hv : cv = 0
      · simp only [ht, hv, if_false, ne_eq, not_true_eq_false]
        exact hnone
      · simp only [ht, hv, if_false, ne_eq, not_false_eq_true, if_true]
        have h3 : ReturnsOrTraps (attempt (rec others (wrap (cv * target)))
            (fun expr => Expression.binop expr '/' candidate) (.ok none)) :=
          attempt_returnsOrTraps _ (hrec _) hnone
        have h2 : ReturnsOrTraps (match cmod32 cv target with
            | .error f => .error f
            | .ok m =>
              if m = 0 then
                match cdiv32 cv target with
                | .error f => .error f
                | .ok q =>
                  attempt (rec others q) (fun expr => Expression.binop candidate '/' expr)
                    (attempt (rec others (wrap (cv * target)))
                      (fun expr => Expression.binop expr '/' candidate) (.ok none))
              else attempt (rec others (wrap (cv * target)))
                (fun expr => Expression.binop expr '/' candidate) (.ok none) : Result) := by
          rcases cmod32_cases cv ht with h | ⟨m, h⟩
          · rw [h]; exact Or.inl rfl
          · rw [h]
            simp only []
            split
            · rcases cdiv32_cases cv ht with h' | ⟨q, h'⟩
              · rw [h']; exact Or.inl rfl
              · rw [h']
                exact attempt_returnsOrTraps _ (hrec _) h3
            · exact h3
        rcases cmod32_cases target hv with h | ⟨m, h⟩
        · rw [h]; exact Or.inl rfl
        · rw [h]
          simp only []
          split
          · rcases cdiv32_cases target hv with h' | ⟨q, h'⟩
            · rw [h']; exact Or.inl rfl
            · rw [h']
              exact attempt_returnsOrTraps _ (hrec _) h2
          · exact h2

theorem pair_evaluate32_cases (a b : Int) {operation : Char}
    (hop : operation = '+' ∨ operation = '-' ∨ operation = '*' ∨ (operation = '/' ∧ b ≠ 0)) :
    (Expression.binop (.int a) operation (.int b)).evaluate32 = .error .divOverflow ∨
      ∃ cv, (Expression.binop (.int a) operation (.int b)).evaluate32 = .ok cv := by
  rcases hop with rfl | rfl | rfl | ⟨rfl, hb⟩
  · exact Or.inr ⟨_, rfl⟩
  · exact Or.inr ⟨_, rfl⟩
  · exact Or.inr ⟨_, rfl⟩
  · simp only [Expression.evaluate32, applyOperation32, Char.reduceEq, if_false, if_true]
    exact cdiv32_cases a hb

theorem pairBody32_returnsOrTraps {rec : List Int → Int → Result} {numbers : List Int}
    {i j : Nat} (target : Int) (hij : i < j) (hj : j < numbers.length)
    (hrec : ∀ t, ReturnsOrTraps (rec ((numbers.eraseIdx j).eraseIdx i) t)) :
    ReturnsOrTraps (pairBody32 rec numbers target i j) := by
  unfold pairBody32
  obtain ⟨left, hl⟩ : ∃ left, numbers[i]? = some left :=
    ⟨numbers[i], List.getElem?_eq_getElem (by omega)⟩
  obtain ⟨right, hr⟩ : ∃ right, numbers[j]? = some right :=
    ⟨numbers[j], List.getElem?_eq_getElem hj⟩
  rw [index_eq_ok.mpr hl, index_eq_ok.mpr hr]
  simp only []
  have hnone : ReturnsOrTraps (.ok none) := Or.inr ⟨_, rfl⟩
  have hf : ∀ (a b : Int) (operation : Char),
      (operation = '+' ∨ operation = '-' ∨ operation = '*' ∨ (operation = '/' ∧ b ≠ 0)) →
      ReturnsOrTraps (find_binary_operation_with32 rec (.binop (.int a) operation (.int b))
        ((numbers.eraseIdx j).eraseIdx i) target) :=
    fun a b operation hop =>
      find_binary_operation_with32_returnsOrTraps target (pair_evaluate32_cases a b hop) hrec
  have hsecond : ReturnsOrTraps (if left ≠ 0 then
      match cmod32 right left with
      | .error f => .error f
      | .ok m =>
        if m = 0 then
          attempt (find_binary_operation_with32 rec (.binop (.int right) '/' (.int left))
            ((numbers.eraseIdx j).eraseIdx i) target) id (.ok none)
        else .ok none
      else .ok none : Result) := by
    by_cases hl0 : left = 0
    · simp only [ne_eq, hl0, not_true_eq_false, if_false]
      exact hnone
    · simp only [ne_eq, hl0, not_false_eq_true, if_true]
      rcases cmod32_cases right hl0 with h | ⟨m, h⟩
      · rw [h]; exact Or.inl rfl
      · rw [h]
        simp only []
        split
        · exact attempt_returnsOrTraps _
            (hf right left '/' (Or.inr (Or.inr (Or.inr ⟨rfl, hl0⟩)))) hnone
        · exact hnone
  refine attempt_returnsOrTraps _ (hf _ _ _ (Or.inl rfl))
    (attempt_returnsOrTraps _ (hf _ _ _ (Or.inr (Or.inl rfl)))
      (attempt_returnsOrTraps _ (hf _ _ _ (Or.inr (Or.inl rfl)))
        (attempt_returnsOrTraps _ (hf _ _ _ (Or.inr (Or.inr (Or.inl rfl)))) ?_)))
  by_cases hr0 : right = 0
  · simp only [ne_eq, hr0, not_true_eq_false, if_false]
    rw [hr0] at hsecond
    exact hsecond
  · simp only [ne_eq, hr0, not_false_eq_true, if_true]
    rcases cmod32_cases left hr0 with h | ⟨m, h⟩
    · rw [h]; exact Or.inl rfl
    · rw [h]
      simp only []
      split
      · exact attempt_returnsOrTraps _
          (hf left right '/' (Or.inr (Or.inr (Or.inr ⟨rfl, hr0⟩)))) hsecond
      · exact hsecond

theorem challenge_with32_returnsOrTraps {rec : List Int → Int → Result}
    (numbers : List Int) (target : Int)
    (hrec : ∀ others t, others.length < numbers.length → ReturnsOrTraps (rec others t)) :
    ReturnsOrTraps (challenge_with32 rec numbers target) := by
  have hnone : ReturnsOrTraps (.ok none) := Or.inr ⟨_, rfl⟩
  unfold challenge_with32
  split
  · split
    · exact Or.inr ⟨_, rfl⟩
    · exact hnone
  · refine firstSuccess_returnsOrTraps ?_ ?_
    · intro i hi
      have hi2 := List.mem_range.mp hi
      have hget : numbers[i]? = some numbers[i] := List.getElem?_eq_getElem hi2
      unfold singleBody32
      rw [index_eq_ok.mpr hget]
      have hlt : (numbers.eraseIdx i).length < numbers.length := by
        rw [List.length_eraseIdx_of_lt hi2]
        omega
      exact find_binary_operation_with32_returnsOrTraps target (Or.inr ⟨_, rfl⟩)
        (fun t => hrec _ t hlt)
    · split
      · refine firstSuccess_returnsOrTraps
          (fun i hi => firstSuccess_returnsOrTraps (fun j hj => ?_) hnone) hnone
        have hj2 := List.mem_range'_1.mp hj
        have hjlt : j < numbers.length := by omega
        have hlt : ((numbers.eraseIdx j).eraseIdx i).length < numbers.length := by
          have h2 := List.length_eraseIdx_le (numbers.eraseIdx j) i
          rw [List.length_eraseIdx_of_lt hjlt] at h2
          omega
        exact pairBody32_returnsOrTraps target (by omega) hjlt (fun t => hrec _ t hlt)
      · exact hnone

theorem challengeFuel32_returnsOrTraps (fuel : Nat) :
    ∀ (numbers : List Int) (target : Int), numbers.length < fuel →
      ReturnsOrTraps (challengeFuel32 fuel numbers target) := by
  induction fuel with
  | zero => intro _ _ h; omega
  | succ k ih =>
    intro numbers target hlen
    rw [challengeFuel32]
    exact challenge_with32_returnsOrTraps numbers target
      (fun others t hlt => ih others t (by omega))

theorem challenge32_returnsOrTraps (numbers : List Int) (target : Int) :
    ReturnsOrTraps (challenge32 numbers target) :=
  challengeFuel32_returnsOrTraps _ numbers target (Nat.lt_succ_self _)

/-! ## Trees on two given numbers -/

theorem two_leaves_cases {s : Expression} {a b : Int} (hn : s.hasNothing = false)
    (hl : (↑s.literals : Multiset Int) = ↑([a, b] : List Int)) :
    ∃ operation, s = .binop (.int a) operation (.int b) ∨
      s = .binop (.int b) operation (.int a) := by
  have hperm : s.literals.Perm [a, b] := Multiset.coe_eq_coe.mp hl
  obtain ⟨x, operation, y, rfl⟩ := eq_pair_of_two_leaves hn hperm.length_eq
  refine ⟨operation, ?_⟩
  simp only [Expression.literals, List.singleton_append] at hperm
  have hx : x ∈ [a, b] := hperm.subset (List.mem_cons_self _ _)
  simp only [List.mem_cons, List.mem_singleton, List.not_mem_nil, or_false] at hx
  rcases hx with rfl | rfl
  · have := List.perm_singleton.mp (hperm.cons_inv).symm
    simp only [List.cons.injEq, and_true] at this
    exact Or.inl (by rw [this])
  · have h2 : [x, y].Perm [x, a] := hperm.trans (List.Perm.swap _ _ _)
    have := List.perm_singleton.mp (h2.cons_inv).symm
    simp only [List.cons.injEq, and_true] at this
    exact Or.inr (by rw [this])

/-! ## The claims -/

/-- C1. Soundness of value: a tree returned by `challenge numbers target`
evaluates to `target`, and so does a tree returned by `find_binary_operation`
for any candidate and remainder (a candidate whose evaluation is not defined
makes the call fault, so it returns no tree).  It holds for every list, the
empty one included. -/
theorem soundness_of_value :
    (∀ (numbers : List Int) (target : Int) (e : Expression),
      challenge numbers target = .ok (some e) → e.evaluate = .ok target) ∧
    (∀ (candidate : Expression) (others : List Int) (target : Int) (e : Expression),
      find_binary_operation candidate others target = .ok (some e) →
        e.evaluate = .ok target) :=
  ⟨challenge_evaluate, fun _ _ _ _ h => find_binary_operation_evaluate h⟩

theorem soundness_of_value_witness :
    (Expression.binop (.int 2) '*' (.int 6)).evaluate = .ok 12 ∧
    (Expression.binop (.binop (.int 7) '-' (.int 3)) '*' (.int 6)).evaluate = .ok 24 :=
  ⟨soundness_of_value.1 [2, 6] 12 _ (by decide),
    soundness_of_value.2 (.binop (.int 7) '-' (.int 3)) [6] 24 _ (by decide)⟩

/-- C2, as stated, fails: `challenge [0, 2] 0` returns a tree whose Literal
leaves are not the multiset of the input numbers (the 2 is dropped). -/
theorem number_usage_counterexample :
    ∃ e, challenge [0, 2] 0 = .ok (some e) ∧
      (↑e.literals : Multiset Int) ≠ ↑([0, 2] : List Int) := by
  refine ⟨.binop (.int 0) '*' .nothing, by decide, fun h => ?_⟩
  have := congrArg Multiset.card h
  simp [Expression.literals] at this

/-- C2, amended. Soundness of number usage: a tree returned by
`challenge numbers target` that contains no Empty node has, at its leaves,
exactly the multiset `numbers`. -/
theorem number_usage_without_nothing (numbers : List Int) (target : Int) (e : Expression)
    (h : challenge numbers target = .ok (some e)) (hn : e.hasNothing = false) :
    (↑e.literals : Multiset Int) = ↑numbers :=
  Multiset.coe_eq_coe.mpr (challenge_literals_perm numbers target e h hn)

theorem number_usage_without_nothing_witness :
    (↑(Expression.binop (.int 2) '*' (.int 6)).literals : Multiset Int) =
      ↑([2, 6] : List Int) :=
  number_usage_without_nothing [2, 6] 12 _ (by decide) (by decide)

set_option maxRecDepth 100000 in
/-- C4. Reference scenario: `challenge [1, 3, 1, 5] 24` returns an expression,
and that expression evaluates to 24. -/
theorem reference_scenario_succeeds :
    ∃ e, challenge [1, 3, 1, 5] 24 = .ok (some e) ∧ e.evaluate = .ok 24 :=
  ⟨.binop (.binop (.int 1) '+' (.int 3)) '*' (.binop (.int 1) '+' (.int 5)),
    by decide, by decide⟩

/-- C5. Base case: `challenge [n] t` succeeds if and only if `n = t`, and it
then returns the Literal `n`; otherwise it reports no solution. -/
theorem base_case (n t : Int) :
    ((∃ e, challenge [n] t = .ok (some e)) ↔ n = t) ∧
    challenge [n] t = if n = t then .ok (some (.int n)) else .ok none := by
  refine ⟨?_, challenge_singleton n t⟩
  rw [challenge_singleton]
  by_cases hnt : n = t <;> simp [hnt]

/-- C6, as stated, fails on 32-bit `int`: for `{100000, 1410065408}` and the
target 100000 the subtarget `candidate_value * target` wraps around from
`10^10` to 1410065408, and the search returns `1410065408 / 100000`, a
division that leaves the remainder 65408. -/
theorem division_exactness_counterexample :
    challenge32 [100000, 1410065408] 100000 =
        .ok (some (.binop (.int 1410065408) '/' (.int 100000))) ∧
      wrap (100000 * 100000) = 1410065408 ∧
      (1410065408 : Int).tmod 100000 = 65408 ∧
      ¬(Expression.binop (.int 1410065408) '/' (.int 100000)).DivisionsExact := by
  refine ⟨by decide, by decide, by decide, ?_⟩
  rintro ⟨-, -, h⟩
  obtain ⟨a, b, ha, hb, -, hm⟩ := h rfl
  simp only [Expression.evaluate, Except.ok.injEq] at ha hb
  subst ha hb
  revert hm
  decide

/-- C6, amended. Division exactness on exact integers: with `int` taken as an
exact, unbounded integer, in a tree returned by `challenge numbers target`
every `'/'` node has a right operand that evaluates to a non-zero integer
dividing the value of the left operand with remainder 0, and evaluating the
tree does not divide by zero. -/
theorem division_exactness (numbers : List Int) (target : Int) (e : Expression)
    (h : challenge numbers target = .ok (some e)) :
    e.DivisionsExact ∧ e.evaluate ≠ .error .divByZero := by
  obtain ⟨hv, hd⟩ := challenge_divisionsExact numbers target e h
  exact ⟨hd, by rw [hv]; simp⟩

theorem division_exactness_witness :
    (Expression.binop (.int 12) '/' (.int 4)).DivisionsExact ∧
      (Expression.binop (.int 12) '/' (.int 4)).evaluate ≠ .error .divByZero :=
  division_exactness [12, 4] 3 _ (by decide)

set_option maxRecDepth 100000 in
/-- C7, as stated, fails: for the target 3, which is not zero,
`challenge [3, 0, 2] 3` returns `3 + (0 * Empty)`; it contains an Empty node
and its rendering contains the sentinel.  On 32-bit `int` a list without 0
fails too: the product `65536 * 196608` wraps around to 0, and for the target
5 the search on `[5, 65536, 196608, 7, 100]` returns
`5 + ((65536 * 196608) * Empty)`. -/
theorem no_placeholder_counterexample :
    (∃ e, challenge [3, 0, 2] 3 = .ok (some e) ∧ e.hasNothing = true ∧
      sentinel.data <:+: e.print.data) ∧
    (∃ e, challenge32 [5, 65536, 196608, 7, 100] 5 = .ok (some e) ∧
      e.hasNothing = true) :=
  ⟨⟨.binop (.int 3) '+' (.binop (.int 0) '*' .nothing), by decide, by decide,
    "( 3 + ( 0 * ".data, " ) )".data, by decide⟩,
    ⟨.binop (.int 5) '+' (.binop (.binop (.int 65536) '*' (.int 196608)) '*' .nothing),
      by decide, by decide⟩⟩

/-- C7, amended. With `int` taken as an exact, unbounded integer: for a target
other than 0 and a list none of whose numbers is 0, of any length, or a list
of at most two numbers, a tree returned by `challenge numbers target` contains
no Empty node, and its rendering does not contain the sentinel. -/
theorem no_placeholder_without_zero (numbers : List Int) (target : Int) (e : Expression)
    (ht : target ≠ 0) (hz : (0 : Int) ∉ numbers ∨ numbers.length ≤ 2)
    (h : challenge numbers target = .ok (some e)) :
    e.hasNothing = false ∧ ¬(sentinel.data <:+: e.print.data) := by
  have hn : e.hasNothing = false := by
    rcases hz with hz | h2
    · exact challenge_hasNothing_of_zero_free _ numbers rfl hz target e h
    · exact challenge_hasNothing_of_length_le_two ht h2 h
  exact ⟨hn, print_sentinel hn (challenge_operatorsValid numbers target e h)⟩

theorem no_placeholder_without_zero_witness :
    (Expression.binop (.int 5) '+' (.binop (.int 5) '+'
        (.binop (.int 5) '+' (.binop (.int 5) '+' (.int 5))))).hasNothing = false ∧
      ¬(sentinel.data <:+: (Expression.binop (.int 5) '+' (.binop (.int 5) '+'
        (.binop (.int 5) '+' (.binop (.int 5) '+' (.int 5))))).print.data) :=
  no_placeholder_without_zero [5, 5, 5, 5, 5] 25 _ (by decide) (Or.inl (by decide))
    (by decide)

/-- C8, as stated, fails: `challenge [2, 2] 0` does not report "no solution". -/
theorem two_two_zero_counterexample : challenge [2, 2] 0 ≠ .ok none := by
  decide

/-- C8, amended. `challenge [2, 2] 0` returns the tree `2 - 2`, found by the
first subtraction attempt, and it evaluates to 0. -/
theorem two_two_zero_solution :
    challenge [2, 2] 0 = .ok (some (.binop (.int 2) '-' (.int 2))) ∧
      (Expression.binop (.int 2) '-' (.int 2)).evaluate = .ok 0 :=
  ⟨by decide, by decide⟩

/-- C9. Degenerate zero case: `challenge [0, 2] 0` returns `Literal(0) * Empty`;
it evaluates to 0 and is rendered with the placeholder as right operand. -/
theorem degenerate_zero_case :
    challenge [0, 2] 0 = .ok (some (.binop (.int 0) '*' .nothing)) ∧
      (Expression.binop (.int 0) '*' .nothing).evaluate = .ok 0 ∧
      (Expression.binop (.int 0) '*' .nothing).print = "( 0 * [Anything] )" :=
  ⟨by decide, by decide, by decide⟩

/-- C10. Regression oracle: `challenge [5, 5, 5, 5] 20` returns an expression,
and it evaluates to 20. -/
theorem four_fives_twenty :
    ∃ e, challenge [5, 5, 5, 5] 20 = .ok (some e) ∧ e.evaluate = .ok 20 :=
  ⟨.binop (.int 5) '+' (.binop (.int 5) '+' (.binop (.int 5) '+' (.int 5))),
    by decide, by decide⟩

/-- C3, as stated, fails: `challenge [1, 1, 1, 1, 1, 1] 9` reports no
solution, although `(1 + 1 + 1) * (1 + 1 + 1)` uses the six numbers once each
and evaluates to 9.  The search only tries candidates of one or two numbers,
and this tree splits three against three.  On 32-bit `int` a list of three
numbers fails too: for `{120027, 200065, 15}` and the target 1600880117 the
subtarget `15 * target` wraps around and the search reports no solution,
although `(120027 * 200065) / 15` is the target. -/
theorem completeness_counterexample :
    (challenge [1, 1, 1, 1, 1, 1] 9 = .ok none ∧
      ∃ e, Solution [1, 1, 1, 1, 1, 1] 9 e) ∧
    (challenge32 [120027, 200065, 15] 1600880117 = .ok none ∧
      ∃ e, Solution [120027, 200065, 15] 1600880117 e) := by
  refine ⟨⟨?_, ?_⟩, by decide, ?_⟩
  · obtain ⟨o, ho⟩ := challenge_ok _ [1, 1, 1, 1, 1, 1] rfl 9
    cases o with
    | none => exact ho
    | some e =>
      have := challenge_ones_bound _ _ _ ho (by decide) (by simp)
      exact absurd this (by decide)
  · refine ⟨.binop (.binop (.binop (.int 1) '+' (.int 1)) '+' (.int 1)) '*'
      (.binop (.binop (.int 1) '+' (.int 1)) '+' (.int 1)), rfl, ?_, ?_, rfl, by decide⟩
    · simp [Expression.OperatorsValid]
    · simp [Expression.DivisionsExact]
  · refine ⟨.binop (.binop (.int 120027) '*' (.int 200065)) '/' (.int 15), rfl, ?_, ?_, rfl,
      by decide⟩
    · simp [Expression.OperatorsValid]
    · exact ⟨⟨trivial, trivial, fun h => absurd h (by decide)⟩, trivial, fun _ =>
        ⟨24013201755, 15, by decide, rfl, by decide, by decide⟩⟩

/-- C3, amended. Completeness of the "no solution" answer for lists of one to
five numbers, with `int` taken as an exact, unbounded integer: if
`challenge numbers target` reports no solution, then no tree
without Empty node, with operators among `+ - * /` and every division exact
and by a non-zero divisor, has exactly the numbers of the list at its leaves
and the value `target`.  (For the empty list there is no such tree at all.) -/
theorem completeness_up_to_five (numbers : List Int) (target : Int)
    (h5 : numbers.length ≤ 5)
    (h : challenge numbers target = .ok none) :
    ¬∃ e, Solution numbers target e :=
  fun ⟨e, he⟩ => challenge_complete_of_length_le_five _ numbers rfl h5 target h e he

theorem completeness_up_to_five_witness :
    challenge [2, 2, 2] 7 = .ok none ∧ ¬∃ e, Solution [2, 2, 2] 7 e :=
  ⟨by decide, completeness_up_to_five [2, 2, 2] 7 (by decide) (by decide)⟩

/-- C11. Regression oracle: `challenge [1, 1] 5` reports no solution. -/
theorem two_ones_five : challenge [1, 1] 5 = .ok none := by
  decide

/-- C12. Termination: `challenge` returns for every list and target (a tree
or "no solution", never a lack of fuel); the body of `challenge` runs its
recursive call only on non-empty lists shorter than `numbers` by one, or by
two when `numbers` has four elements or more (functions that agree on these
lists give the same result); and for a non-empty list a depth of recursion
equal to the number of inputs is enough. -/
theorem termination :
    (∀ (numbers : List Int) (target : Int), ∃ o, challenge numbers target = .ok o) ∧
    (∀ (rec1 rec2 : List Int → Int → Result) (numbers : List Int) (target : Int),
      (∀ others t, others ≠ [] →
        (others.length + 1 = numbers.length ∨
          (others.length + 2 = numbers.length ∧ 4 ≤ numbers.length)) →
        rec1 others t = rec2 others t) →
      challenge_with rec1 numbers target = challenge_with rec2 numbers target) ∧
    (∀ (numbers : List Int) (target : Int), numbers ≠ [] →
      challengeFuel numbers.length numbers target = challenge numbers target) :=
  ⟨fun numbers target => challenge_ok _ numbers rfl target,
    fun _ _ _ target h => challenge_with_congr_shorter h target,
    fun numbers target hne =>
      challengeFuel_of_length_le _ numbers target (List.length_pos.mpr hne) (le_refl _)⟩

theorem termination_witness :
    (∃ o, challenge [7, 0, 3, 9, 2, 4, 1] 100 = .ok o) ∧
      challengeFuel 2 [1, 1] 5 = challenge [1, 1] 5 :=
  ⟨termination.1 _ _, termination.2.2 [1, 1] 5 (by decide)⟩

/-- C13. Completeness for short lists: for a list of at most five numbers, if
`challenge numbers target` reports no solution then no tree solves the game
for `numbers` and `target`; put the other way, if some tree solves it then
`challenge` returns a tree. -/
theorem completeness_short_lists (numbers : List Int) (target : Int)
    (h5 : numbers.length ≤ 5) :
    (challenge numbers target = .ok none → ¬∃ e, Solution numbers target e) ∧
    (∀ e, Solution numbers target e → ∃ r, challenge numbers target = .ok (some r)) := by
  have hcomplete := challenge_complete_of_length_le_five _ numbers rfl h5 target
  refine ⟨fun h ⟨e, he⟩ => hcomplete h e he, fun e he => ?_⟩
  obtain ⟨o, ho⟩ := challenge_ok _ numbers rfl target
  cases o with
  | none => exact absurd he (hcomplete ho e)
  | some r => exact ⟨r, ho⟩

theorem completeness_short_lists_witness :
    ¬∃ e, Solution [1, 1] 5 e :=
  (completeness_short_lists [1, 1] 5 (by decide)).1 (by decide)

/-- C14, as stated, fails on 32-bit `int`: for `{100000, 1410065408}` and the
target 100000 the search reports the success `1410065408 / 100000`, but no
tree without Empty node on these two numbers has the value 100000, neither
on exact integers (no solution of the game exists) nor evaluated on 32-bit
`int`, whatever its operator. -/
theorem success_counterexample :
    challenge32 [100000, 1410065408] 100000 =
        .ok (some (.binop (.int 1410065408) '/' (.int 100000))) ∧
      (¬∃ s, Solution [100000, 1410065408] 100000 s) ∧
      (∀ s : Expression, s.hasNothing = false →
        (↑s.literals : Multiset Int) = ↑([100000, 1410065408] : List Int) →
        s.evaluate32 ≠ .ok 100000) := by
  refine ⟨by decide, ?_, ?_⟩
  · rintro ⟨s, hs⟩
    exact challenge_complete_of_length_le_five _ [100000, 1410065408] rfl (by decide)
      100000 (by decide) s hs
  · intro s hn hl
    obtain ⟨operation, rfl | rfl⟩ := two_leaves_cases hn hl <;>
      simp only [Expression.evaluate32, applyOperation32] <;>
      split_ifs <;> decide

/-- C14, amended. A reported success is never spurious on exact integers:
with `int` taken as an exact, unbounded integer, if `challenge numbers target`
returns a tree, even one with an Empty node, then some tree without Empty
node, with every division exact and by a non-zero divisor, has exactly the
multiset `numbers` at its leaves and evaluates to `target`. -/
theorem success_not_spurious (numbers : List Int) (target : Int) (e : Expression)
    (h : challenge numbers target = .ok (some e)) : ∃ s, Solution numbers target s :=
  challenge_solution_exists numbers target e h

theorem success_not_spurious_witness : ∃ s, Solution [0, 2] 0 s :=
  success_not_spurious [0, 2] 0 (.binop (.int 0) '*' .nothing) (by decide)

/-- C15. Number usage versus placeholder: the Literal leaves of a tree
returned by `challenge numbers target` form a sub-multiset of `numbers`, and
they are all of `numbers` if and only if the tree contains no Empty node. -/
theorem number_usage_versus_placeholder (numbers : List Int) (target : Int)
    (e : Expression) (h : challenge numbers target = .ok (some e)) :
    (↑e.literals : Multiset Int) ≤ ↑numbers ∧
      ((↑e.literals : Multiset Int) = ↑numbers ↔ e.hasNothing = false) := by
  obtain ⟨hs, hl⟩ := challenge_literals_subperm numbers target e h
  refine ⟨Multiset.coe_le.mpr hs, fun heq => ?_, fun hn =>
    Multiset.coe_eq_coe.mpr (challenge_literals_perm numbers target e h hn)⟩
  cases hn : e.hasNothing with
  | false => rfl
  | true =>
    have h1 := hl hn
    have h2 := (Multiset.coe_eq_coe.mp heq).length_eq
    omega

theorem number_usage_versus_placeholder_witness :
    (↑(Expression.binop (.int 3) '+' (.binop (.int 0) '*' .nothing)).literals :
        Multiset Int) ≤ ↑([3, 0, 2] : List Int) ∧
      ((↑(Expression.binop (.int 3) '+' (.binop (.int 0) '*' .nothing)).literals :
        Multiset Int) = ↑([3, 0, 2] : List Int) ↔
        (Expression.binop (.int 3) '+' (.binop (.int 0) '*' .nothing)).hasNothing = false) :=
  number_usage_versus_placeholder [3, 0, 2] 3 _ (by decide)

set_option maxRecDepth 100000 in
/-- C17. Fixed search order: `challenge [1, 3, 1, 5] 24` returns exactly
`(1 + 3) * (1 + 5)`, printed as `( ( 1 + 3 ) * ( 1 + 5 ) )`; the four
single-operand expansions find nothing, and the first pairwise candidate
`1 + 3` is completed by `find_binary_operation` with the product by `1 + 5`,
the tree returned for the remainder `[1, 5]` and the subtarget 6. -/
theorem fixed_search_order :
    challenge [1, 3, 1, 5] 24 =
        .ok (some (.binop (.binop (.int 1) '+' (.int 3)) '*' (.binop (.int 1) '+' (.int 5)))) ∧
      (Expression.binop (.binop (.int 1) '+' (.int 3)) '*'
        (.binop (.int 1) '+' (.int 5))).print = "( ( 1 + 3 ) * ( 1 + 5 ) )" ∧
      (∀ i, i < 4 → singleBody challenge [1, 3, 1, 5] 24 i = .ok none) ∧
      find_binary_operation (.binop (.int 1) '+' (.int 3)) [1, 5] 24 =
        .ok (some (.binop (.binop (.int 1) '+' (.int 3)) '*' (.binop (.int 1) '+' (.int 5)))) ∧
      challenge [1, 5] 6 = .ok (some (.binop (.int 1) '+' (.int 5))) :=
  ⟨by decide, by decide, by decide, by decide, by decide⟩

/-- C18, as stated, fails on 32-bit `int`: the error branch of the partial
`%` is reached.  For `{-1, 5}` and the target `INT_MIN` the guard
`target % candidate_value` is `INT_MIN % -1`, whose divisor is not zero but
whose quotient is not an `int`, and the search ends in that fault. -/
theorem division_fault_counterexample :
    challenge32 [-1, 5] INT_MIN = .error .divOverflow ∧
      cmod32 INT_MIN (-1) = .error .divOverflow := by
  constructor <;> decide

/-- C18, amended. Every `/` and `%` the search executes has a non-zero
divisor, so the error branch of a division that is undefined for a zero
divisor is unreachable.  On 32-bit `int`, `challenge32` ends with a tree, with
"no solution" or with the fault of `INT_MIN` by `-1`, which this statement
does not cover; it never ends with a division by zero or another fault, and
neither does `find_binary_operation32` on a candidate whose evaluation is
defined.  On exact integers `challenge` and `find_binary_operation` never end
in a division by zero either. -/
theorem search_never_divides_by_zero :
    (∀ (numbers : List Int) (target : Int), ReturnsOrTraps (challenge32 numbers target)) ∧
    (∀ (numbers : List Int) (target : Int), challenge32 numbers target ≠ .error .divByZero) ∧
    (∀ (candidate : Expression) (others : List Int) (target cv : Int),
      candidate.evaluate32 = .ok cv →
        find_binary_operation32 candidate others target ≠ .error .divByZero) ∧
    (∀ (numbers : List Int) (target : Int), challenge numbers target ≠ .error .divByZero) ∧
    (∀ (candidate : Expression) (others : List Int) (target cv : Int),
      candidate.evaluate = .ok cv →
        find_binary_operation candidate others target ≠ .error .divByZero) := by
  have hne : ∀ r : Result, ReturnsOrTraps r → r ≠ .error .divByZero := by
    rintro r (rfl | ⟨o, rfl⟩) <;> simp
  refine ⟨challenge32_returnsOrTraps, fun numbers target =>
    hne _ (challenge32_returnsOrTraps numbers target), ?_, ?_, ?_⟩
  · intro candidate others target cv hcv
    exact hne _ (find_binary_operation_with32_returnsOrTraps target (Or.inr ⟨cv, hcv⟩)
      (fun t => challenge32_returnsOrTraps others t))
  · intro numbers target
    obtain ⟨o, ho⟩ := challenge_ok _ numbers rfl target
    rw [ho]
    simp
  · intro candidate others target cv hcv
    have hok : ∃ o, find_binary_operation_with challenge candidate others target = .ok o :=
      find_binary_operation_with_ok target hcv (fun t => challenge_ok _ others rfl t)
    obtain ⟨o, ho⟩ := hok
    unfold find_binary_operation
    rw [ho]
    simp

theorem search_never_divides_by_zero_witness :
    challenge32 [12, 4] 3 ≠ .error .divByZero ∧
      find_binary_operation32 (.binop (.int 12) '/' (.int 4)) [7] 21 ≠ .error .divByZero ∧
      challenge [12, 4] 3 ≠ .error .divByZero :=
  ⟨search_never_divides_by_zero.2.1 _ _,
    search_never_divides_by_zero.2.2.1 _ _ _ 3 (by decide),
    search_never_divides_by_zero.2.2.2.1 _ _⟩

/-- C19. Outside the precondition: for the empty list `challenge` reports no
solution, whatever the target. -/
theorem empty_list (target : Int) : challenge [] target = .ok none := by
  rw [challenge_eq]
  rfl

end Challenge24
